import Mathlib

/-!
Verification of the table-seating solver of this repository.

The development shallowly embeds the code of src/solve_sitting.ts
(functions findSubtours, solveSitting and the base ILP model) and of
docs/matrix_to_table.mjs (function extractTableCycle).

Modelling conventions:
* JavaScript numbers are modelled as exact rationals; the matrices of
  rounded solver values as lists of integers.
* The external solver (glpk.js) is a collaborator: it is modelled as an
  arbitrary function from the submitted problem to either a thrown
  message or a solve result, and theorems quantify over it.
* console.assert and the console log calls never throw in JavaScript and
  never alter control flow; the embedding therefore continues past them.
  Where a failed assert condition is observable behaviour worth stating,
  the condition itself is embedded as a Boolean (verifyMatrixAsserts,
  the squareness check) and recorded in the run record, mirroring what
  the console would log.
* The while loop of findSubtours is embedded with an explicit step
  bound (the loop marks an unvisited node on every pass, so n + 1 steps
  always suffice; this is proved below as traceAux_not_exhausted).
-/

set_option maxRecDepth 10000

namespace TableSitting

/-! ### Matrices -/

abbrev Pref := List (List ℚ)

abbrev Matrix := List (List Int)

/-- Reading entry (i, j) of an adjacency matrix; out-of-range reads behave
like the JavaScript `undefined === 1` comparison (never equal to 1). -/
def rowGet (m : Matrix) (i j : Nat) : Int :=
  (m.getD i []).getD j 0

/-- Writing entry (i, j) of an adjacency matrix (varMatrix[i][j] = v). -/
def rowSet (m : Matrix) (i j : Nat) (v : Int) : Matrix :=
  m.set i ((m.getD i []).set j v)

/-- JavaScript Math.round: the floor of q + 1/2, spelled over the
numerator and denominator so that it evaluates by kernel reduction
(the rational field operations are irreducible); jsRound_eq below
proves this equal to the floor of q + 1/2. -/
def jsRound (q : ℚ) : Int :=
  (Rat.divInt (2 * q.num + q.den) (2 * q.den)).floor

/-! ### findSubtours (src/solve_sitting.ts, lines 62-165)

The traversal state of one cycle trace.  `degErr` records that the
console.error branch for an unexpected degree was taken (the cycle is
invalidated and the trace aborted); `foreign` records the console.warn
branch for running into a node already visited by another trace;
`exhausted` records that the embedding's step bound ran out (proved
impossible below). -/

structure TraceSt where
  visited : List Bool
  cycle : List Nat
  degErr : Bool
  foreign : Bool
  exhausted : Bool
deriving DecidableEq, Repr

/-- Neighbor scan of findSubtours: collect the row entries equal to 1,
return [] for the single-node graph, and pass the list through only when
its length is 2 or 1 (otherwise [] is returned and the caller's branch
on the length reports the structural inconsistency). -/
def getNeighbors (m : Matrix) (node : Nat) : List Nat :=
  let n := m.length
  let neighbors := (List.range n).filter (fun j => rowGet m node j = 1)
  if n = 1 then []
  else if neighbors.length = 2 ∨ neighbors.length = 1 then neighbors
  else []

/-- One cycle trace of findSubtours (the inner while loop): starting at
an unvisited node, repeatedly move to the neighbor that is not the node
just arrived from, until the trace returns to `start`, hits a foreign
visited node, or meets a node of unexpected degree. -/
def traceAux (m : Matrix) (n start : Nat) :
    Nat → List Bool → List Nat → Nat → Int → TraceSt
  | 0, visited, cycle, _, _ => ⟨visited, cycle, false, false, true⟩
  | fuel + 1, visited, cycle, cur, prev =>
    if visited.getD cur false then ⟨visited, cycle, false, false, false⟩
    else
      let visited1 := visited.set cur true
      let cycle1 := cycle ++ [cur]
      let nbrs := getNeighbors m cur
      if nbrs.length = 0 ∧ n = 1 then ⟨visited1, cycle1, false, false, false⟩
      else
        match (if nbrs.length = 1 ∧ n = 2 then some (nbrs.getD 0 0)
               else if nbrs.length = 2 then
                 some (if (nbrs.getD 0 0 : Int) = prev then nbrs.getD 1 0 else nbrs.getD 0 0)
               else none) with
        | none => ⟨visited1, [], true, false, false⟩
        | some next =>
          if visited1.getD next false then
            if next = start then ⟨visited1, cycle1, false, false, false⟩
            else ⟨visited1, [], false, true, false⟩
          else traceAux m n start fuel visited1 cycle1 next (cur : Int)

/-- Result of a whole findSubtours run, with the logged conditions. -/
structure SubtoursRun where
  subtours : List (List Nat)
  visited : List Bool
  degErr : Bool
  foreign : Bool
  failTrace : Bool
  exhausted : Bool
deriving DecidableEq, Repr

/-- Body of the outer for loop of findSubtours: skip visited nodes,
trace a cycle from each unvisited one, and keep the traced cycle when it
was not invalidated. -/
def findSubtoursStep (m : Matrix) (n : Nat) (st : SubtoursRun) (i : Nat) : SubtoursRun :=
  if st.visited.getD i false then st
  else
    let t := traceAux m n i (n + 1) st.visited [] i (-1)
    if 0 < t.cycle.length then
      { subtours := st.subtours ++ [t.cycle], visited := t.visited,
        degErr := st.degErr || t.degErr, foreign := st.foreign || t.foreign,
        failTrace := st.failTrace, exhausted := st.exhausted || t.exhausted }
    else if ¬ t.visited.getD i false ∧ 0 < n then
      { subtours := st.subtours, visited := t.visited.set i true,
        degErr := st.degErr || t.degErr, foreign := st.foreign || t.foreign,
        failTrace := true, exhausted := st.exhausted || t.exhausted }
    else
      { subtours := st.subtours, visited := t.visited,
        degErr := st.degErr || t.degErr, foreign := st.foreign || t.foreign,
        failTrace := st.failTrace, exhausted := st.exhausted || t.exhausted }

/-- findSubtours with its observable log conditions. -/
def findSubtoursRun (m : Matrix) : SubtoursRun :=
  let n := m.length
  if n = 0 then ⟨[], [], false, false, false, false⟩
  else (List.range n).foldl (findSubtoursStep m n)
    ⟨[], List.replicate n false, false, false, false, false⟩

/-- findSubtours: the list of disjoint cycles found in the matrix. -/
def findSubtours (m : Matrix) : List (List Nat) :=
  (findSubtoursRun m).subtours

/-! ### Variable names and their parsing -/

/-- Split a character list at every underscore, as the split call with
separator underscore does on the variable names. -/
def splitOnUnd : List Char → List (List Char)
  | [] => [[]]
  | c :: rest =>
    let r := splitOnUnd rest
    if c = '_' then [] :: r else (c :: r.headD []) :: r.tail

/-- Value of a leading run of decimal digits, none when there is no digit. -/
def digitsVal (l : List Char) : Option Nat :=
  let d := l.takeWhile Char.isDigit
  if d.isEmpty then none
  else some (d.foldl (fun a c => a * 10 + (c.toNat - 48)) 0)

/-- JavaScript parseInt with radix 10 (sign then leading digits; NaN is
modelled as none, and NaN makes the bounds guard of the caller false). -/
def jsParseInt : List Char → Option Int
  | '-' :: rest => (digitsVal rest).map (fun v => -(v : Int))
  | '+' :: rest => (digitsVal rest).map (fun v => (v : Int))
  | l => (digitsVal l).map (fun v => (v : Int))

/-- The variable naming scheme of solveSitting. -/
def getVarName (i j : Nat) : String :=
  "x_" ++ Nat.repr i ++ "_" ++ Nat.repr j

/-- The startsWith check on variable names in the result interpretation. -/
def startsWithXund (s : String) : Bool :=
  match s.data with
  | 'x' :: '_' :: _ => true
  | _ => false

/-! ### The GLPK problem model (the solver protocol boundary) -/

inductive BndType
  | fx
  | up
deriving DecidableEq, Repr

inductive ObjDir
  | glpMax
  | glpMin
deriving DecidableEq, Repr

inductive SolveStatus
  | undef
  | feas
  | infeas
  | nofeas
  | opt
  | unbnd
deriving DecidableEq, Repr

structure LPVar where
  name : String
  coef : ℚ
deriving DecidableEq, Repr

structure LPBound where
  type : BndType
  ub : ℚ
  lb : ℚ
deriving DecidableEq, Repr

structure LPConstraint where
  name : String
  vars : List LPVar
  bnds : LPBound
deriving DecidableEq, Repr

structure LPObjective where
  direction : ObjDir
  name : String
  vars : List LPVar
deriving DecidableEq, Repr

structure LPProblem where
  name : String
  objective : LPObjective
  subjectTo : List LPConstraint
  binaries : List String
deriving DecidableEq, Repr

structure SolveResult where
  status : SolveStatus
  vars : List (String × ℚ)
deriving DecidableEq, Repr

/-- The external solver: a collaborator mapping a submitted problem to a
thrown message or a result.  Theorems quantify over this function. -/
abbrev Solver := LPProblem → Except String SolveResult

/-! ### The base model (src/solve_sitting.ts, lines 179-225) -/

/-- The tie-breaking constant 0.001, spelled as a ratio of integers so
that it evaluates by kernel reduction; EPSILON_eq proves it is 1/1000. -/
def EPSILON : ℚ := Rat.divInt 1 1000

/-- Objective coefficient: pref[i][j] + EPSILON when the entry exists and
is a number, plain EPSILON otherwise (the typeof check of line 203). -/
def prefCoef (pref : Pref) (i j : Nat) : ℚ :=
  match (pref.getD i [])[j]? with
  | some v => v + EPSILON
  | none => EPSILON

/-- The base GLPK problem: maximize total preference, subject to the
degree (row sum fixed at 2) and symmetry constraints, all ordered-pair
variables binary. -/
def baseLpProblem (pref : Pref) : LPProblem :=
  let n := pref.length
  let indices := List.range n
  { name := "TableSitting",
    objective :=
      { direction := ObjDir.glpMax, name := "TotalPreference",
        vars := indices.flatMap (fun i =>
          (indices.filter (fun j => i ≠ j)).map (fun j =>
            { name := getVarName i j, coef := prefCoef pref i j })) },
    subjectTo :=
      (indices.map (fun i =>
        { name := "RowSum_" ++ Nat.repr i,
          vars := (indices.filter (fun j => i ≠ j)).map (fun j =>
            { name := getVarName i j, coef := 1 }),
          bnds := { type := BndType.fx, ub := 2, lb := 2 } })) ++
      (indices.flatMap (fun i =>
        (indices.filter (fun j => i < j)).map (fun j =>
          { name := "Symm_" ++ Nat.repr i ++ "_" ++ Nat.repr j,
            vars := [{ name := getVarName i j, coef := 1 },
                     { name := getVarName j i, coef := -1 }],
            bnds := { type := BndType.fx, ub := 0, lb := 0 } }))),
    binaries := indices.flatMap (fun i =>
      (indices.filter (fun j => i ≠ j)).map (fun j => getVarName i j)) }

/-! ### Interpreting solver output (lines 283-316) -/

/-- Processing one entry of the result variable map: parse the indices
out of the name and write the rounded value into the matrix; names that
fail to parse or fall out of bounds are skipped (only logged). -/
def applyVarEntry (n : Nat) (m : Matrix) (e : String × ℚ) : Matrix :=
  if startsWithXund e.1 then
    let parts := splitOnUnd e.1.data
    match jsParseInt (parts.getD 1 []), jsParseInt (parts.getD 2 []) with
    | some i, some j =>
      if 0 ≤ i ∧ i < (n : Int) ∧ 0 ≤ j ∧ j < (n : Int) then
        rowSet m i.toNat j.toNat (jsRound e.2)
      else m
    | _, _ => m
  else m

/-- The rounded result matrix built from the solver's variable map. -/
def buildVarMatrix (n : Nat) (vs : List (String × ℚ)) : Matrix :=
  vs.foldl (applyVarEntry n) (List.replicate n (List.replicate n 0))

/-- The conjunction of the console.assert conditions checked on the
result matrix (symmetry, zero diagonal, row sums equal to 2).  In the
source these asserts only log on failure and never throw, so the
surrounding try/catch is unreachable and the loop continues regardless;
the run record keeps this Boolean to make the logging observable. -/
def verifyMatrixAsserts (n : Nat) (m : Matrix) : Bool :=
  (List.range n).all (fun i =>
    ((List.range n).all (fun j =>
      if i ≠ j then rowGet m i j = rowGet m j i else rowGet m i i = 0)) &&
    ((((List.range n).filter (fun j => j ≠ i)).map (fun j => rowGet m i j)).sum = 2))

/-! ### Subtour elimination constraints (lines 339-368) -/

/-- Underscore-joined rendering of the first cycle nodes (the slice and
join of the constraint name). -/
def joinUnd : List String → String
  | [] => ""
  | [a] => a
  | a :: b :: rest => a ++ "_" ++ joinUnd (b :: rest)

/-- The elimination constraint for one cycle s: the sum of the variables
of all unordered in-cycle pairs bounded above by the cycle length - 1. -/
def elimConstraint (iter : Nat) (s : List Nat) : LPConstraint :=
  { name := "SubtourElim_" ++ Nat.repr iter ++ "_" ++ joinUnd ((s.take 5).map Nat.repr),
    vars := s.flatMap (fun i => (s.filter (fun j => i < j)).map (fun j =>
      { name := getVarName i j, coef := 1 })),
    bnds := { type := BndType.up, ub := (s.length : ℚ) - 1, lb := 0 } }

/-- The constraints appended in one iteration: one per detected cycle
whose length is positive and strictly below n, in order. -/
def elimConstraintsOf (iter n : Nat) (subs : List (List Nat)) : List LPConstraint :=
  subs.foldl (fun acc s =>
    if s.length < n ∧ 0 < s.length then acc ++ [elimConstraint iter s] else acc) []

/-! ### The cutting-plane loop (lines 178-390) -/

/-- The distinct throw sites of solveSitting.  The source throws Error
values whose messages distinguish the cases; the constructors mirror
those messages.  The unreachable catch block of lines 317-323 (console
asserts never throw) has no constructor. -/
inductive SitError
  | solverThrew (iterCount : Nat) (msg : String)
  | solverFailed (st : SolveStatus)
  | noSingleCycle (iterCount : Nat) (st : SolveStatus)
  | noCycles (n : Nat)
  | wrongLength (len n : Nat)
  | stuck
  | budgetExhausted (maxIter : Nat)
deriving DecidableEq, Repr

/-- What one loop iteration did, mirroring the per-iteration debug logs. -/
inductive IterLog
  | threw (msg : String)
  | failedStatus (st : SolveStatus)
  | succeeded (st : SolveStatus) (subs : List (List Nat))
  | failedStructure (st : SolveStatus) (subs : List (List Nat))
  | continued (st : SolveStatus) (subs : List (List Nat))
deriving DecidableEq, Repr

def IterLog.getStatus : IterLog → Option SolveStatus
  | .threw _ => none
  | .failedStatus st => some st
  | .succeeded st _ => some st
  | .failedStructure st _ => some st
  | .continued st _ => some st

def IterLog.isContinued : IterLog → Bool
  | .continued _ _ => true
  | _ => false

instance {ε α : Type} [DecidableEq ε] [DecidableEq α] : DecidableEq (Except ε α) := fun a b =>
  match a, b with
  | .error e, .error f => decidable_of_iff (e = f) (by simp)
  | .ok x, .ok y => decidable_of_iff (x = y) (by simp)
  | .error _, .ok _ => isFalse (by simp)
  | .ok _, .error _ => isFalse (by simp)

/-- Result of a solveSitting run: the returned value or thrown error,
the per-iteration log (its length is the number of solver invocations),
and whether every executed console.assert condition held. -/
structure RunResult where
  result : Except SitError Matrix
  trace : List IterLog
  assertsOk : Bool
deriving DecidableEq, Repr

/-- The iterative solving loop with subtour elimination.  `fuel` is the
number of remaining iterations (starting at n * 2), `iter` the zero-based
index of the current one, `cons` the accumulated elimination constraints. -/
def loopAux (solver : Solver) (n : Nat) (base : LPProblem) :
    Nat → Nat → List LPConstraint → Bool → RunResult
  | 0, _, _, aOk => ⟨.error (.budgetExhausted (n * 2)), [], aOk⟩
  | fuel + 1, iter, cons, aOk =>
    let problem := { base with subjectTo := base.subjectTo ++ cons }
    match solver problem with
    | .error msg => ⟨.error (.solverThrew (iter + 1) msg), [.threw msg], aOk⟩
    | .ok res =>
      let st := res.status
      if st ≠ SolveStatus.opt ∧ st ≠ SolveStatus.feas then
        if 0 < iter ∧ (st = SolveStatus.infeas ∨ st = SolveStatus.nofeas) then
          ⟨.error (.noSingleCycle (iter + 1) st), [.failedStatus st], aOk⟩
        else
          ⟨.error (.solverFailed st), [.failedStatus st], aOk⟩
      else
        let m := buildVarMatrix n res.vars
        let aOk1 := aOk && verifyMatrixAsserts n m
        let subs := findSubtours m
        if subs.length = 1 ∧ (subs.getD 0 []).length = n then
          ⟨.ok m, [.succeeded st subs], aOk1⟩
        else if 1 < subs.length then
          let newCons := elimConstraintsOf iter n subs
          if newCons.length = 0 ∧ 0 < subs.length ∧ 0 < iter then
            ⟨.error .stuck, [.failedStructure st subs], aOk1⟩
          else
            let r := loopAux solver n base fuel (iter + 1) (cons ++ newCons) aOk1
            ⟨r.result, .continued st subs :: r.trace, r.assertsOk⟩
        else if subs.length = 0 ∧ 0 < n then
          ⟨.error (.noCycles n), [.failedStructure st subs], aOk1⟩
        else if subs.length = 1 ∧ (subs.getD 0 []).length ≠ n then
          ⟨.error (.wrongLength (subs.getD 0 []).length n), [.failedStructure st subs], aOk1⟩
        else
          let r := loopAux solver n base fuel (iter + 1) cons aOk1
          ⟨r.result, .continued st subs :: r.trace, r.assertsOk⟩

/-- solveSitting with its observable run data.  The sizes 0, 1 and 2 are
handled by the fixed early returns; the squareness console.assert of
line 188 is recorded (it never throws), after which the loop runs for at
most n * 2 iterations. -/
def solveSittingRun (solver : Solver) (pref : Pref) : RunResult :=
  let n := pref.length
  if n = 0 then ⟨.ok [], [], true⟩
  else if n = 1 then ⟨.ok [[0]], [], true⟩
  else if n = 2 then ⟨.ok [[0, 1], [1, 0]], [], true⟩
  else
    let squareOk := pref.all (fun row => row.length == n)
    loopAux solver n (baseLpProblem pref) (n * 2) 0 [] squareOk

/-- solveSitting: the returned adjacency matrix or the thrown error. -/
def solveSitting (solver : Solver) (pref : Pref) : Except SitError Matrix :=
  (solveSittingRun solver pref).result

/-! ### extractTableCycle (docs/matrix_to_table.mjs, lines 75-159) -/

/-- The throw sites of extractTableCycle (these are genuine throws in
the source, unlike the console asserts). -/
inductive ExtractError
  | badDims (n : Nat)
  | badDegree (node deg n : Nat)
  | notBackToStart (ended : Nat)
  | badPath (len uniq n : Nat)
deriving DecidableEq, Repr

/-- The final validation after the n-step walk: the walk must be back at
node 0 and the path must hold n distinct nodes. -/
def extractValidate (n : Nat) (path : List Nat) (cur : Nat) :
    Except ExtractError (List Nat) :=
  if cur ≠ 0 then .error (.notBackToStart cur)
  else if path.length ≠ n ∨ path.dedup.length ≠ n then
    .error (.badPath path.length path.dedup.length n)
  else .ok path

/-- The n-step cycle walk of extractTableCycle: push the current node,
require degree exactly 2 (a genuine throw otherwise), and move to the
neighbor that is not the previous node. -/
def extractLoop (m : Matrix) (n : Nat) :
    Nat → List Nat → Nat → Int → Except ExtractError (List Nat)
  | 0, path, cur, _ => extractValidate n path cur
  | step + 1, path, cur, prev =>
    let path1 := path ++ [cur]
    let nbrs := (List.range n).filter (fun j => rowGet m cur j = 1)
    if nbrs.length ≠ 2 then .error (.badDegree cur nbrs.length n)
    else
      let next := if (nbrs.getD 0 0 : Int) = prev then nbrs.getD 1 0 else nbrs.getD 0 0
      extractLoop m n step path1 next (cur : Int)

/-- extractTableCycle: fixed results for sizes 0, 1, 2 (validated there
only by console asserts), a dimension throw for a non-square first row,
then the n-step walk from node 0. -/
def extractTableCycle (m : Matrix) : Except ExtractError (List Nat) :=
  let n := m.length
  if n = 0 then .ok []
  else if n = 1 then .ok [0]
  else if n = 2 then .ok [0, 1]
  else if (m.getD 0 []).length ≠ n then .error (.badDims n)
  else extractLoop m n n [] 0 (-1)

/-! ### Concrete fixtures (solver test doubles and inputs used in the
closed theorems below) -/

/-- Number of 1-entries in a node's row, the degree findSubtours sees. -/
def rowDegree (m : Matrix) (v : Nat) : Nat :=
  ((List.range m.length).filter (fun j => rowGet m v j = 1)).length

def zeros3 : Pref := [[0, 0, 0], [0, 0, 0], [0, 0, 0]]

def zeros4 : Pref := [[0, 0, 0, 0], [0, 0, 0, 0], [0, 0, 0, 0], [0, 0, 0, 0]]

def zeros6 : Pref := List.replicate 6 (List.replicate 6 0)

/-- A well-behaved solver double for n = 3: the triangle assignment. -/
def triVars : List (String × ℚ) :=
  [("x_0_1", 1), ("x_0_2", 1), ("x_1_0", 1), ("x_1_2", 1), ("x_2_0", 1), ("x_2_1", 1)]

def triSolver : Solver := fun _ => .ok ⟨SolveStatus.opt, triVars⟩

def triMatrix : Matrix := [[0, 1, 1], [1, 0, 1], [1, 1, 0]]

/-- A solver double whose output rounds to an asymmetric matrix whose
rows nevertheless trace as one full cycle 0-1-2-3-0. -/
def asymVars : List (String × ℚ) :=
  [("x_0_1", 1), ("x_0_2", 1), ("x_1_2", 1), ("x_1_3", 1),
   ("x_2_1", 1), ("x_2_3", 1), ("x_3_0", 1), ("x_3_1", 1)]

def asymSolver : Solver := fun _ => .ok ⟨SolveStatus.opt, asymVars⟩

def asymMatrix : Matrix := [[0, 1, 1, 0], [0, 0, 1, 1], [0, 1, 0, 1], [1, 1, 0, 0]]

/-- Assignment of two disjoint triangles on 6 nodes. -/
def twoTriVars : List (String × ℚ) :=
  [("x_0_1", 1), ("x_0_2", 1), ("x_1_0", 1), ("x_1_2", 1), ("x_2_0", 1), ("x_2_1", 1),
   ("x_3_4", 1), ("x_3_5", 1), ("x_4_3", 1), ("x_4_5", 1), ("x_5_3", 1), ("x_5_4", 1)]

/-- Two triangles first, then unbounded once elimination constraints are
present (the base model for n = 6 has 6 + 15 = 21 constraints). -/
def unbSolver : Solver := fun p =>
  if 21 < p.subjectTo.length then .ok ⟨SolveStatus.unbnd, []⟩
  else .ok ⟨SolveStatus.opt, twoTriVars⟩

/-- Two triangles first, then infeasible once eliminations are present. -/
def infeasLater : Solver := fun p =>
  if 21 < p.subjectTo.length then .ok ⟨SolveStatus.infeas, []⟩
  else .ok ⟨SolveStatus.opt, twoTriVars⟩

/-- Infeasible from the very first call. -/
def infeasSolver : Solver := fun _ => .ok ⟨SolveStatus.infeas, []⟩

def msgSentinel : String := "sentinel"

/-- A solver double that throws, marking that it was reached at all. -/
def sentThrow : Solver := fun _ => .error msgSentinel

/-- A non-square 3-row preference matrix (second row too short). -/
def badPref : Pref := [[0, 0, 0], [0, 0], [0, 0, 0]]

/-! ### Faithfulness of the reduction-friendly spellings -/

/-- EPSILON is exactly 0.001. -/
theorem EPSILON_eq : EPSILON = 1 / 1000 := by
  rw [EPSILON, Rat.divInt_eq_div]
  norm_num

/-- jsRound is exactly the floor of q + 1/2 (Math.round). -/
theorem jsRound_eq (q : ℚ) : jsRound q = ⌊q + 1 / 2⌋ := by
  have hden : ((q.den : ℚ)) ≠ 0 := Nat.cast_ne_zero.mpr q.den_nz
  have hq : (q.num : ℚ) = q * q.den := by
    have hnd := Rat.num_div_den q
    rwa [div_eq_iff hden] at hnd
  have h : Rat.divInt (2 * q.num + q.den) (2 * q.den) = q + 1 / 2 := by
    rw [Rat.divInt_eq_div]
    push_cast
    rw [div_eq_iff (by positivity), hq]
    ring
  rw [jsRound, h, Rat.floor_def', Rat.floor_def]

/-! ### C9 -/

/-- C9: for n = 0, 1, 2 solveSitting returns the fixed matrices [],
[[0]] and [[0,1],[1,0]] respectively, for every solver and every
preference content (the trace is empty, so the external solver is never
invoked). -/
theorem c9_trivial_sizes (solver : Solver) (pref : Pref) :
    (pref.length = 0 → solveSittingRun solver pref = ⟨.ok [], [], true⟩) ∧
    (pref.length = 1 → solveSittingRun solver pref = ⟨.ok [[0]], [], true⟩) ∧
    (pref.length = 2 → solveSittingRun solver pref = ⟨.ok [[0, 1], [1, 0]], [], true⟩) := by
  refine ⟨fun h => ?_, fun h => ?_, fun h => ?_⟩ <;> simp [solveSittingRun, h]

/-- Witness for C9 at sizes 0, 1 and 2 with arbitrary preference data. -/
theorem c9_trivial_sizes_witness :
    solveSittingRun sentThrow [] = ⟨.ok [], [], true⟩ ∧
    solveSittingRun sentThrow [[5]] = ⟨.ok [[0]], [], true⟩ ∧
    solveSittingRun sentThrow [[0, 1], [2, 3]] = ⟨.ok [[0, 1], [1, 0]], [], true⟩ :=
  ⟨(c9_trivial_sizes sentThrow []).1 rfl,
   (c9_trivial_sizes sentThrow [[5]]).2.1 rfl,
   (c9_trivial_sizes sentThrow [[0, 1], [2, 3]]).2.2 rfl⟩

/-! ### C6 -/

/-- C6: refuted behaviour of the result-matrix validation.  The console
asserts of lines 303-316 fail for this solver output (the rounded
matrix is asymmetric: entry (0,1) is 1 while (1,0) is 0), yet since
console.assert never throws, the catch block never fires and
solveSitting proceeds and returns the invalid matrix as a success. -/
theorem c6_invalid_matrix_returned :
    solveSitting asymSolver zeros4 = .ok asymMatrix ∧
    verifyMatrixAsserts 4 asymMatrix = false ∧
    rowGet asymMatrix 0 1 = 1 ∧ rowGet asymMatrix 1 0 = 0 ∧
    (solveSittingRun asymSolver zeros4).assertsOk = false := by
  decide

/-! ### C10 -/

/-- C10: refuted behaviour of the dimension validation.  On a non-square
3-row preference matrix the squareness console.assert of line 188 fails
(recorded as assertsOk = false) but nothing is thrown; the external
solver is invoked anyway (the trace has one entry, and the run ends in
the sentinel solver's thrown error, not in any dimension failure — the
error type has no dimension-failure case because the source has no such
throw site).  The missing entry pref[1][2] merely becomes a bare EPSILON
objective coefficient. -/
theorem c10_no_dimension_rejection :
    (solveSittingRun sentThrow badPref).result = .error (.solverThrew 1 msgSentinel) ∧
    (solveSittingRun sentThrow badPref).trace = [.threw msgSentinel] ∧
    (solveSittingRun sentThrow badPref).assertsOk = false ∧
    ((baseLpProblem badPref).objective.vars)[3]? =
      some { name := getVarName 1 2, coef := EPSILON } := by
  decide

/-! ### C2 -/

/-- With a square matrix the objective coefficient is the preference
entry plus EPSILON. -/
theorem prefCoef_sq (pref : Pref) (hsq : ∀ row ∈ pref, row.length = pref.length)
    (i j : Nat) (hi : i < pref.length) (hj : j < pref.length) :
    prefCoef pref i j = (pref.getD i []).getD j 0 + EPSILON := by
  have hrow : (pref.getD i []).length = pref.length := by
    rw [List.getD_eq_getElem pref [] hi]
    exact hsq _ (List.getElem_mem hi)
  have hjlen : j < (pref.getD i []).length := by rw [hrow]; exact hj
  rw [prefCoef, List.getElem?_eq_getElem hjlen, List.getD_eq_getElem _ _ hjlen]

/-- C2: for every square preference matrix with n at least 3, the base
model maximizes, contains for every person i an equality constraint
fixing the off-diagonal row sum to 2, for every pair i < j an equality
constraint x_(i,j) - x_(j,i) = 0, contains one objective entry
x_(i,j) with coefficient pref[i][j] + 0.001 for every ordered pair
i different from j (and nothing else), and declares every ordered-pair
variable binary. -/
theorem c2_base_model (pref : Pref) (hn : 3 ≤ pref.length)
    (hsq : ∀ row ∈ pref, row.length = pref.length) :
    (baseLpProblem pref).objective.direction = ObjDir.glpMax ∧
    (∀ i, i < pref.length → ∃ c ∈ (baseLpProblem pref).subjectTo,
      c.bnds = ⟨BndType.fx, 2, 2⟩ ∧
      c.vars = ((List.range pref.length).filter (fun j => i ≠ j)).map
        (fun j => ⟨getVarName i j, 1⟩)) ∧
    (∀ i j, i < j → j < pref.length → ∃ c ∈ (baseLpProblem pref).subjectTo,
      c.vars = [⟨getVarName i j, 1⟩, ⟨getVarName j i, -1⟩] ∧
      c.bnds = ⟨BndType.fx, 0, 0⟩) ∧
    (∀ i j, i < pref.length → j < pref.length → i ≠ j →
      (⟨getVarName i j, (pref.getD i []).getD j 0 + EPSILON⟩ : LPVar) ∈
        (baseLpProblem pref).objective.vars) ∧
    (∀ v ∈ (baseLpProblem pref).objective.vars, ∃ i j, i < pref.length ∧
      j < pref.length ∧ i ≠ j ∧
      v = ⟨getVarName i j, (pref.getD i []).getD j 0 + EPSILON⟩) ∧
    (∀ i j, i < pref.length → j < pref.length → i ≠ j →
      getVarName i j ∈ (baseLpProblem pref).binaries) := by
  refine ⟨rfl, ?_, ?_, ?_, ?_, ?_⟩
  · intro i hi
    refine ⟨{ name := "RowSum_" ++ Nat.repr i,
              vars := ((List.range pref.length).filter (fun j => i ≠ j)).map
                (fun j => ⟨getVarName i j, 1⟩),
              bnds := ⟨BndType.fx, 2, 2⟩ }, ?_, rfl, rfl⟩
    simp only [baseLpProblem, List.mem_append]
    exact Or.inl (List.mem_map.mpr ⟨i, List.mem_range.mpr hi, rfl⟩)
  · intro i j hij hj
    refine ⟨{ name := "Symm_" ++ Nat.repr i ++ "_" ++ Nat.repr j,
              vars := [⟨getVarName i j, 1⟩, ⟨getVarName j i, -1⟩],
              bnds := ⟨BndType.fx, 0, 0⟩ }, ?_, rfl, rfl⟩
    simp only [baseLpProblem, List.mem_append]
    exact Or.inr (List.mem_flatMap.mpr ⟨i, List.mem_range.mpr (lt_trans hij hj),
      List.mem_map.mpr ⟨j, List.mem_filter.mpr ⟨List.mem_range.mpr hj, by simpa using hij⟩,
        rfl⟩⟩)
  · intro i j hi hj hne
    rw [← prefCoef_sq pref hsq i j hi hj]
    simp only [baseLpProblem]
    exact List.mem_flatMap.mpr ⟨i, List.mem_range.mpr hi,
      List.mem_map.mpr ⟨j, List.mem_filter.mpr ⟨List.mem_range.mpr hj, by simpa using hne⟩,
        rfl⟩⟩
  · intro v hv
    simp only [baseLpProblem, List.mem_flatMap, List.mem_map, List.mem_filter,
      List.mem_range] at hv
    obtain ⟨i, hi, j, ⟨hj, hne⟩, rfl⟩ := hv
    exact ⟨i, j, hi, hj, by simpa using hne, by rw [prefCoef_sq pref hsq i j hi hj]⟩
  · intro i j hi hj hne
    simp only [baseLpProblem]
    exact List.mem_flatMap.mpr ⟨i, List.mem_range.mpr hi,
      List.mem_map.mpr ⟨j, List.mem_filter.mpr ⟨List.mem_range.mpr hj, by simpa using hne⟩,
        rfl⟩⟩

/-- Witness for C2 at the all-zero 3-person preference matrix. -/
theorem c2_base_model_witness :
    (baseLpProblem zeros3).objective.direction = ObjDir.glpMax ∧
    (⟨getVarName 0 1, (zeros3.getD 0 []).getD 1 0 + EPSILON⟩ : LPVar) ∈
      (baseLpProblem zeros3).objective.vars ∧
    getVarName 0 1 ∈ (baseLpProblem zeros3).binaries ∧
    ∃ c ∈ (baseLpProblem zeros3).subjectTo, c.bnds = ⟨BndType.fx, 2, 2⟩ ∧
      c.vars = ((List.range zeros3.length).filter (fun j => 0 ≠ j)).map
        (fun j => ⟨getVarName 0 j, 1⟩) := by
  have h := c2_base_model zeros3 (by decide) (by decide)
  exact ⟨h.1, h.2.2.2.1 0 1 (by decide) (by decide) (by decide),
    h.2.2.2.2.2 0 1 (by decide) (by decide) (by decide), h.2.1 0 (by decide)⟩

/-! ### C3 -/

/-- The per-iteration constraint accumulation is one constraint per
cycle of positive length strictly below n, in order. -/
theorem elimFold (iter n : Nat) : ∀ (subs : List (List Nat)) (acc : List LPConstraint),
    subs.foldl (fun acc s =>
        if s.length < n ∧ 0 < s.length then acc ++ [elimConstraint iter s] else acc) acc
      = acc ++ (subs.filter (fun s => s.length < n ∧ 0 < s.length)).map
          (elimConstraint iter) := by
  intro subs
  induction subs with
  | nil => intro acc; simp
  | cons s rest ih =>
    intro acc
    by_cases h : s.length < n ∧ 0 < s.length
    · simp [ih, List.filter_cons, h, List.append_assoc]
    · simp [ih, List.filter_cons, h]

theorem elimConstraintsOf_eq (iter n : Nat) (subs : List (List Nat)) :
    elimConstraintsOf iter n subs
      = (subs.filter (fun s => s.length < n ∧ 0 < s.length)).map (elimConstraint iter) := by
  rw [elimConstraintsOf, elimFold]
  simp

/-- Every unordered in-cycle pair contributes a coefficient-1 variable. -/
theorem elimConstraint_vars_mem (iter : Nat) (s : List Nat) :
    ∀ i j : Nat, i ∈ s → j ∈ s → i < j →
      (⟨getVarName i j, 1⟩ : LPVar) ∈ (elimConstraint iter s).vars := by
  intro i j hi hj hij
  simp only [elimConstraint]
  exact List.mem_flatMap.mpr ⟨i, hi,
    List.mem_map.mpr ⟨j, List.mem_filter.mpr ⟨hj, by simpa using hij⟩, rfl⟩⟩

/-- Every variable of an elimination constraint has coefficient 1 and
names an unordered in-cycle pair. -/
theorem elimConstraint_vars_shape (iter : Nat) (s : List Nat) :
    ∀ v ∈ (elimConstraint iter s).vars,
      v.coef = 1 ∧ ∃ i, i ∈ s ∧ ∃ j, j ∈ s ∧ i < j ∧ v.name = getVarName i j := by
  intro v hv
  simp only [elimConstraint, List.mem_flatMap, List.mem_map, List.mem_filter] at hv
  obtain ⟨i, hi, j, ⟨hj, hij⟩, rfl⟩ := hv
  exact ⟨rfl, i, hi, j, hj, by simpa using hij, rfl⟩

/-- C3: in an iteration that detected more than one subtour, exactly one
elimination constraint is appended per detected cycle of positive length
strictly below n (none for a length-n cycle, by the count equality); for
each such cycle the constraint is an upper bound of cycle length - 1
over exactly the coefficient-1 variables of the unordered in-cycle
pairs. -/
theorem c3_elimination_constraints (iter n : Nat) (subs : List (List Nat))
    (hmulti : 1 < subs.length) :
    (elimConstraintsOf iter n subs).length
      = (subs.filter (fun s => s.length < n ∧ 0 < s.length)).length ∧
    (∀ s ∈ subs, 0 < s.length → s.length < n →
      elimConstraint iter s ∈ elimConstraintsOf iter n subs ∧
      (elimConstraint iter s).bnds = ⟨BndType.up, (s.length : ℚ) - 1, 0⟩ ∧
      (∀ i j : Nat, i ∈ s → j ∈ s → i < j →
        (⟨getVarName i j, 1⟩ : LPVar) ∈ (elimConstraint iter s).vars) ∧
      (∀ v ∈ (elimConstraint iter s).vars,
        v.coef = 1 ∧ ∃ i, i ∈ s ∧ ∃ j, j ∈ s ∧ i < j ∧ v.name = getVarName i j)) := by
  constructor
  · rw [elimConstraintsOf_eq, List.length_map]
  · intro s hs hpos hlt
    refine ⟨?_, rfl, elimConstraint_vars_mem iter s, elimConstraint_vars_shape iter s⟩
    rw [elimConstraintsOf_eq]
    exact List.mem_map.mpr ⟨s, List.mem_filter.mpr ⟨hs, by simp [hpos, hlt]⟩, rfl⟩

/-! ### C1 -/

/-- The loop returns a matrix only from the branch guarded by the
single-full-cycle check on that very matrix. -/
theorem loopAux_ok_single_cycle (solver : Solver) (n : Nat) (base : LPProblem) :
    ∀ fuel iter cons aOk m,
      (loopAux solver n base fuel iter cons aOk).result = .ok m →
      (findSubtours m).length = 1 ∧ ((findSubtours m).getD 0 []).length = n := by
  intro fuel
  induction fuel with
  | zero =>
    intro iter cons aOk m h
    simp [loopAux] at h
  | succ f ih =>
    intro iter cons aOk m h
    simp only [loopAux] at h
    split at h
    · simp at h
    · split at h
      · split at h <;> simp at h
      · split at h
        · rename_i hguard
          simp at h
          rw [h] at hguard
          exact hguard
        · split at h
          · split at h
            · simp at h
            · simp at h
              exact ih _ _ _ _ h
          · split at h
            · simp at h
            · split at h
              · simp at h
              · simp at h
                exact ih _ _ _ _ h

/-- C1: whenever solveSitting returns a matrix for n at least 3, running
findSubtours on the returned matrix yields exactly one cycle, of length
n. -/
theorem c1_success_single_cycle (solver : Solver) (pref : Pref)
    (hn : 3 ≤ pref.length) (m : Matrix)
    (hok : solveSitting solver pref = .ok m) :
    ∃ c, findSubtours m = [c] ∧ c.length = pref.length := by
  have h0 : ¬ pref.length = 0 := by omega
  have h1 : ¬ pref.length = 1 := by omega
  have h2 : ¬ pref.length = 2 := by omega
  simp only [solveSitting, solveSittingRun, h0, h1, h2, if_false] at hok
  obtain ⟨hlen, hgd⟩ :=
    loopAux_ok_single_cycle solver pref.length (baseLpProblem pref) _ _ _ _ _ hok
  obtain ⟨c, hc⟩ := List.length_eq_one.mp hlen
  refine ⟨c, hc, ?_⟩
  rw [hc] at hgd
  simpa using hgd

/-- Witness for C1: the triangle run for n = 3. -/
theorem c1_success_single_cycle_witness :
    ∃ c, findSubtours triMatrix = [c] ∧ c.length = zeros3.length :=
  c1_success_single_cycle triSolver zeros3 (by decide) triMatrix (by decide)

/-- Witness for C3 on the two disjoint triangles of a 6-node matrix. -/
theorem c3_elimination_constraints_witness :
    elimConstraint 0 [0, 1, 2] ∈ elimConstraintsOf 0 6 [[0, 1, 2], [3, 4, 5]] ∧
    (elimConstraint 0 [0, 1, 2]).bnds
      = ⟨BndType.up, (([0, 1, 2] : List Nat).length : ℚ) - 1, 0⟩ ∧
    (⟨getVarName 1 2, 1⟩ : LPVar) ∈ (elimConstraint 0 [0, 1, 2]).vars ∧
    (elimConstraintsOf 0 6 [[0, 1, 2], [3, 4, 5]]).length
      = (([[0, 1, 2], [3, 4, 5]] : List (List Nat)).filter
          (fun s => s.length < 6 ∧ 0 < s.length)).length := by
  have h := c3_elimination_constraints 0 6 [[0, 1, 2], [3, 4, 5]] (by decide)
  have h2 := h.2 [0, 1, 2] (by decide) (by decide) (by decide)
  exact ⟨h2.1, h2.2.1, h2.2.2.1 1 2 (by decide) (by decide) (by decide), h.1⟩

/-! ### C4 -/

/-- Each loop step consumes one unit of fuel and invokes the solver
exactly once, so the trace never exceeds the fuel. -/
theorem loopAux_trace_length_le (solver : Solver) (n : Nat) (base : LPProblem) :
    ∀ fuel iter cons aOk,
      (loopAux solver n base fuel iter cons aOk).trace.length ≤ fuel := by
  intro fuel
  induction fuel with
  | zero => intro iter cons aOk; simp [loopAux]
  | succ f ih =>
    intro iter cons aOk
    simp only [loopAux]
    split
    · simp
    · split
      · split <;> simp
      · split
        · simp
        · split
          · split
            · simp
            · simp only [List.length_cons]
              exact Nat.succ_le_succ (ih _ _ _)
          · split
            · simp
            · split
              · simp
              · simp only [List.length_cons]
                exact Nat.succ_le_succ (ih _ _ _)

/-- The budget error is thrown exactly when every fuel unit was spent on
an iteration that continued (found improper subtours and moved on). -/
theorem loopAux_budget_iff (solver : Solver) (n : Nat) (base : LPProblem) :
    ∀ fuel iter cons aOk,
      ((loopAux solver n base fuel iter cons aOk).result
          = .error (.budgetExhausted (n * 2)) ↔
        (loopAux solver n base fuel iter cons aOk).trace.length = fuel ∧
        ∀ e ∈ (loopAux solver n base fuel iter cons aOk).trace,
          e.isContinued = true) := by
  intro fuel
  induction fuel with
  | zero => intro iter cons aOk; simp [loopAux]
  | succ f ih =>
    intro iter cons aOk
    simp only [loopAux]
    split
    · simp [IterLog.isContinued]
    · split
      · split <;> simp [IterLog.isContinued]
      · split
        · simp [IterLog.isContinued]
        · split
          · split
            · simp [IterLog.isContinued]
            · simp [ih (iter + 1) _ _, IterLog.isContinued]
          · split
            · simp [IterLog.isContinued]
            · split
              · simp [IterLog.isContinued]
              · simp [ih (iter + 1) cons _, IterLog.isContinued]

/-- An iteration only continues past the success check, so no continued
trace entry carries a single cycle of length n. -/
theorem loopAux_continued_no_single (solver : Solver) (n : Nat) (base : LPProblem) :
    ∀ fuel iter cons aOk st subs,
      IterLog.continued st subs ∈ (loopAux solver n base fuel iter cons aOk).trace →
      ¬(subs.length = 1 ∧ (subs.getD 0 []).length = n) := by
  intro fuel
  induction fuel with
  | zero => intro iter cons aOk st subs h; simp [loopAux] at h
  | succ f ih =>
    intro iter cons aOk st subs h
    simp only [loopAux] at h
    split at h
    · simp at h
    · split at h
      · split at h <;> simp at h
      · split at h
        · simp at h
        · split at h
          · split at h
            · simp at h
            · rename_i hnot _ _
              simp only [List.mem_cons] at h
              rcases h with h | h
              · obtain ⟨rfl, rfl⟩ : st = _ ∧ subs = _ := by
                  injection h with h1 h2; exact ⟨h1, h2⟩
                exact hnot
              · exact ih _ _ _ _ _ h
          · split at h
            · simp at h
            · split at h
              · simp at h
              · rename_i hnot _ _ _
                simp only [List.mem_cons] at h
                rcases h with h | h
                · obtain ⟨rfl, rfl⟩ : st = _ ∧ subs = _ := by
                    injection h with h1 h2; exact ⟨h1, h2⟩
                  exact hnot
                · exact ih _ _ _ _ _ h

/-- C4 (amended): the solver is invoked at most 2n times; the
iteration-budget error is thrown exactly when all 2n iterations ran and
every one of them continued (so in particular none of them produced a
single cycle of length n); and that error is a constructor distinct
from every infeasibility or solver-failure error. -/
theorem c4_iteration_budget (solver : Solver) (pref : Pref) (hn : 3 ≤ pref.length) :
    (solveSittingRun solver pref).trace.length ≤ pref.length * 2 ∧
    ((solveSittingRun solver pref).result
        = .error (.budgetExhausted (pref.length * 2)) ↔
      (solveSittingRun solver pref).trace.length = pref.length * 2 ∧
      ∀ e ∈ (solveSittingRun solver pref).trace, e.isContinued = true) ∧
    (∀ st subs, IterLog.continued st subs ∈ (solveSittingRun solver pref).trace →
      ¬(subs.length = 1 ∧ (subs.getD 0 []).length = pref.length)) ∧
    (∀ k msg i j st, SitError.budgetExhausted k ≠ SitError.solverFailed st ∧
      SitError.budgetExhausted k ≠ SitError.noSingleCycle i st ∧
      SitError.budgetExhausted k ≠ SitError.solverThrew i msg ∧
      SitError.budgetExhausted k ≠ SitError.noCycles j) := by
  have h0 : ¬ pref.length = 0 := by omega
  have h1 : ¬ pref.length = 1 := by omega
  have h2 : ¬ pref.length = 2 := by omega
  simp only [solveSittingRun, h0, h1, h2, if_false]
  refine ⟨loopAux_trace_length_le _ _ _ _ _ _ _,
    loopAux_budget_iff _ _ _ _ _ _ _,
    loopAux_continued_no_single _ _ _ _ _ _ _, ?_⟩
  intro k msg i j st
  refine ⟨?_, ?_, ?_, ?_⟩ <;> intro h <;> cases h

/-- Witness for C4 at the triangle run. -/
theorem c4_iteration_budget_witness :
    (solveSittingRun triSolver zeros3).trace.length ≤ zeros3.length * 2 :=
  (c4_iteration_budget triSolver zeros3 (by decide)).1

/-- Counterexample for C4 as stated: with a solver that reports
infeasibility on the very first call, no iteration produces a single
cycle of length n (the trace holds one failed-status entry and nothing
else), yet the thrown error is the solver-failure error, not the
iteration-budget error. -/
theorem c4_counterexample_not_budget :
    (solveSittingRun infeasSolver zeros3).result
      = .error (.solverFailed SolveStatus.infeas) ∧
    (solveSittingRun infeasSolver zeros3).trace
      = [IterLog.failedStatus SolveStatus.infeas] := by
  decide

/-! ### C5 -/

/-- Indexing a one-element list. -/
theorem getElem?_singleton_cases {α : Type} (x e : α) (k : Nat)
    (h : ([x] : List α)[k]? = some e) : k = 0 ∧ e = x := by
  cases k with
  | zero =>
    simp only [List.getElem?_cons_zero, Option.some.injEq] at h
    exact ⟨rfl, h.symm⟩
  | succ k => simp at h

/-- If the solver call of the (iter + k)-th iteration returned a status
that is neither optimal nor feasible, the loop throws: the no-single-
cycle error when that was a later iteration with an infeasible or
no-feasible-solution status, and the generic solver failure otherwise
(first iteration, or an undefined or unbounded status). -/
theorem loopAux_bad_status (solver : Solver) (n : Nat) (base : LPProblem) :
    ∀ fuel iter cons aOk k e st,
      (loopAux solver n base fuel iter cons aOk).trace[k]? = some e →
      e.getStatus = some st →
      st ≠ SolveStatus.opt → st ≠ SolveStatus.feas →
      (loopAux solver n base fuel iter cons aOk).result = .error
        (if 0 < iter + k ∧ (st = SolveStatus.infeas ∨ st = SolveStatus.nofeas)
         then SitError.noSingleCycle (iter + k + 1) st
         else SitError.solverFailed st) := by
  intro fuel
  induction fuel with
  | zero => intro iter cons aOk k e st hk; simp [loopAux] at hk
  | succ f ih =>
    intro iter cons aOk k e st hk hst hopt hfeas
    rcases hs : solver { base with subjectTo := base.subjectTo ++ cons } with msg | res
    · simp only [loopAux, hs] at hk ⊢
      obtain ⟨rfl, rfl⟩ := getElem?_singleton_cases _ _ _ hk
      simp [IterLog.getStatus] at hst
    · simp only [loopAux, hs] at hk ⊢
      by_cases hbad : res.status ≠ SolveStatus.opt ∧ res.status ≠ SolveStatus.feas
      · rw [if_pos hbad] at hk ⊢
        by_cases hc2 : 0 < iter ∧
            (res.status = SolveStatus.infeas ∨ res.status = SolveStatus.nofeas)
        · rw [if_pos hc2] at hk ⊢
          dsimp only at hk ⊢
          obtain ⟨rfl, rfl⟩ := getElem?_singleton_cases _ _ _ hk
          simp only [IterLog.getStatus, Option.some.injEq] at hst
          subst hst
          simp only [Nat.add_zero]
          rw [if_pos hc2]
        · rw [if_neg hc2] at hk ⊢
          dsimp only at hk ⊢
          obtain ⟨rfl, rfl⟩ := getElem?_singleton_cases _ _ _ hk
          simp only [IterLog.getStatus, Option.some.injEq] at hst
          subst hst
          simp only [Nat.add_zero]
          rw [if_neg hc2]
      · rw [if_neg hbad] at hk ⊢
        have hgood : res.status = SolveStatus.opt ∨ res.status = SolveStatus.feas := by
          by_contra hng
          push_neg at hng
          exact hbad ⟨hng.1, hng.2⟩
        by_cases hsucc : (findSubtours (buildVarMatrix n res.vars)).length = 1 ∧
            ((findSubtours (buildVarMatrix n res.vars)).getD 0 []).length = n
        · rw [if_pos hsucc] at hk ⊢
          dsimp only at hk ⊢
          obtain ⟨rfl, rfl⟩ := getElem?_singleton_cases _ _ _ hk
          simp only [IterLog.getStatus, Option.some.injEq] at hst
          subst hst
          rcases hgood with hg | hg
          · exact absurd hg hopt
          · exact absurd hg hfeas
        · rw [if_neg hsucc] at hk ⊢
          by_cases hmulti : 1 < (findSubtours (buildVarMatrix n res.vars)).length
          · rw [if_pos hmulti] at hk ⊢
            by_cases hstuck :
                (elimConstraintsOf iter n (findSubtours (buildVarMatrix n res.vars))).length
                    = 0 ∧
                  0 < (findSubtours (buildVarMatrix n res.vars)).length ∧ 0 < iter
            · rw [if_pos hstuck] at hk ⊢
              dsimp only at hk ⊢
              obtain ⟨rfl, rfl⟩ := getElem?_singleton_cases _ _ _ hk
              simp only [IterLog.getStatus, Option.some.injEq] at hst
              subst hst
              rcases hgood with hg | hg
              · exact absurd hg hopt
              · exact absurd hg hfeas
            · rw [if_neg hstuck] at hk ⊢
              dsimp only at hk ⊢
              cases k with
              | zero =>
                simp only [List.getElem?_cons_zero, Option.some.injEq] at hk
                subst hk
                simp only [IterLog.getStatus, Option.some.injEq] at hst
                subst hst
                rcases hgood with hg | hg
                · exact absurd hg hopt
                · exact absurd hg hfeas
              | succ k =>
                simp only [List.getElem?_cons_succ] at hk
                have hrec := ih (iter + 1)
                  (cons ++ elimConstraintsOf iter n (findSubtours (buildVarMatrix n res.vars)))
                  (aOk && verifyMatrixAsserts n (buildVarMatrix n res.vars)) k e st
                  hk hst hopt hfeas
                have harith : iter + 1 + k = iter + (k + 1) := by omega
                rw [harith] at hrec
                exact hrec
          · rw [if_neg hmulti] at hk ⊢
            by_cases hzero : (findSubtours (buildVarMatrix n res.vars)).length = 0 ∧ 0 < n
            · rw [if_pos hzero] at hk ⊢
              dsimp only at hk ⊢
              obtain ⟨rfl, rfl⟩ := getElem?_singleton_cases _ _ _ hk
              simp only [IterLog.getStatus, Option.some.injEq] at hst
              subst hst
              rcases hgood with hg | hg
              · exact absurd hg hopt
              · exact absurd hg hfeas
            · rw [if_neg hzero] at hk ⊢
              by_cases hone : (findSubtours (buildVarMatrix n res.vars)).length = 1 ∧
                  ((findSubtours (buildVarMatrix n res.vars)).getD 0 []).length ≠ n
              · rw [if_pos hone] at hk ⊢
                dsimp only at hk ⊢
                obtain ⟨rfl, rfl⟩ := getElem?_singleton_cases _ _ _ hk
                simp only [IterLog.getStatus, Option.some.injEq] at hst
                subst hst
                rcases hgood with hg | hg
                · exact absurd hg hopt
                · exact absurd hg hfeas
              · rw [if_neg hone] at hk ⊢
                dsimp only at hk ⊢
                cases k with
                | zero =>
                  simp only [List.getElem?_cons_zero, Option.some.injEq] at hk
                  subst hk
                  simp only [IterLog.getStatus, Option.some.injEq] at hst
                  subst hst
                  rcases hgood with hg | hg
                  · exact absurd hg hopt
                  · exact absurd hg hfeas
                | succ k =>
                  simp only [List.getElem?_cons_succ] at hk
                  have hrec := ih (iter + 1) cons
                    (aOk && verifyMatrixAsserts n (buildVarMatrix n res.vars)) k e st
                    hk hst hopt hfeas
                  have harith : iter + 1 + k = iter + (k + 1) := by omega
                  rw [harith] at hrec
                  exact hrec

/-- C5 (amended): whenever the solver call of iteration k (zero-based)
returns a status that is neither optimal nor feasible, solveSitting
throws; the distinguishable no-single-cycle failure is reported exactly
when k is a later iteration and the status is infeasible or
no-feasible-solution, while a first-iteration rejection or an undefined
or unbounded status yields the generic solver failure. -/
theorem c5_rejection_statuses (solver : Solver) (pref : Pref) (hn : 3 ≤ pref.length)
    (k : Nat) (e : IterLog) (st : SolveStatus)
    (hk : (solveSittingRun solver pref).trace[k]? = some e)
    (hst : e.getStatus = some st)
    (hopt : st ≠ SolveStatus.opt) (hfeas : st ≠ SolveStatus.feas) :
    (solveSittingRun solver pref).result = .error
      (if 0 < k ∧ (st = SolveStatus.infeas ∨ st = SolveStatus.nofeas)
       then SitError.noSingleCycle (k + 1) st
       else SitError.solverFailed st) := by
  have h0 : ¬ pref.length = 0 := by omega
  have h1 : ¬ pref.length = 1 := by omega
  have h2 : ¬ pref.length = 2 := by omega
  simp only [solveSittingRun, h0, h1, h2, if_false] at hk ⊢
  have := loopAux_bad_status solver pref.length (baseLpProblem pref)
    (pref.length * 2) 0 [] (pref.all fun row => row.length == pref.length)
    k e st hk hst hopt hfeas
  simpa using this

/-- Witness for C5: a run that goes infeasible on its second iteration
(after the two-triangle first solution) reports the distinguishable
no-single-cycle error. -/
theorem c5_rejection_statuses_witness :
    (solveSittingRun infeasLater zeros6).result
      = .error (SitError.noSingleCycle 2 SolveStatus.infeas) := by
  have h := c5_rejection_statuses infeasLater zeros6 (by decide) 1
    (IterLog.failedStatus SolveStatus.infeas) SolveStatus.infeas
    (by decide) (by decide) (by decide) (by decide)
  simpa using h

/-- Counterexample for C5 as stated: on the second iteration (after an
elimination constraint exists) the solver reports unbounded — one of the
rejection statuses — yet the thrown error is the generic solver failure,
not the distinguishable no-single-cycle failure the claim requires for
every later-iteration rejection status. -/
theorem c5_counterexample_unbounded_later :
    (solveSittingRun unbSolver zeros6).trace[1]?
        = some (IterLog.failedStatus SolveStatus.unbnd) ∧
    (solveSittingRun unbSolver zeros6).result
      = .error (SitError.solverFailed SolveStatus.unbnd) := by
  decide

/-! ### C7: helper lemmas about the cycle trace -/

theorem getD_set_self_bool (l : List Bool) (i : Nat) (b : Bool) (h : i < l.length) :
    (l.set i b).getD i false = b := by
  rw [List.getD_eq_getElem?_getD, List.getElem?_set_self h]
  rfl

theorem getD_set_ne_bool (l : List Bool) (i j : Nat) (b : Bool) (h : i ≠ j) :
    (l.set i b).getD j false = l.getD j false := by
  rw [List.getD_eq_getElem?_getD, List.getElem?_set_ne h, ← List.getD_eq_getElem?_getD]

theorem getD_set_true_mono (l : List Bool) (i j : Nat) (h : l.getD j false = true) :
    (l.set i true).getD j false = true := by
  by_cases hij : i = j
  · subst hij
    by_cases hi : i < l.length
    · rw [getD_set_self_bool _ _ _ hi]
    · rw [List.set_eq_of_length_le (by omega)]
      exact h
  · rw [getD_set_ne_bool _ _ _ _ hij]
    exact h

theorem getD_replicate_false (k v : Nat) :
    (List.replicate k (false : Bool)).getD v false = false := by
  rw [List.getD_eq_getElem?_getD, List.getElem?_replicate]
  split <;> rfl

theorem count_false_set_true (l : List Bool) (i : Nat) (hi : i < l.length)
    (hg : l.getD i false = false) :
    (l.set i true).count false + 1 = l.count false := by
  have hgi : l[i] = false := by
    rw [List.getD_eq_getElem l false hi] at hg
    exact hg
  have hmem : (false : Bool) ∈ l := hgi ▸ List.getElem_mem hi
  have hpos : 0 < l.count false := List.count_pos_iff.mpr hmem
  rw [List.count_set _ _ _ _ hi]
  simp [hgi]
  omega

/-- A 1-entry in row i forces i to be a real row index. -/
theorem rowGet_one_lt (m : Matrix) (i j : Nat) (h : rowGet m i j = 1) : i < m.length := by
  by_contra hcon
  push_neg at hcon
  rw [rowGet, List.getD_eq_default _ _ hcon] at h
  simp at h

theorem mem_getNeighbors (m : Matrix) (cur x : Nat) (hx : x ∈ getNeighbors m cur) :
    x < m.length ∧ rowGet m cur x = 1 := by
  simp only [getNeighbors] at hx
  split at hx
  · simp at hx
  · split at hx
    · rw [List.mem_filter] at hx
      refine ⟨List.mem_range.mp hx.1, ?_⟩
      simpa using hx.2
    · simp at hx

theorem getNeighbors_length_two_eq (m : Matrix) (cur : Nat)
    (h : (getNeighbors m cur).length = 2) :
    getNeighbors m cur
      = (List.range m.length).filter (fun j => rowGet m cur j = 1) := by
  by_cases h1 : m.length = 1
  · simp only [getNeighbors, if_pos h1] at h
    simp at h
  · simp only [getNeighbors, if_neg h1] at h ⊢
    by_cases h2 : ((List.range m.length).filter (fun j => rowGet m cur j = 1)).length = 2 ∨
        ((List.range m.length).filter (fun j => rowGet m cur j = 1)).length = 1
    · rw [if_pos h2]
    · rw [if_neg h2] at h
      simp at h

theorem getNeighbors_two_lt (m : Matrix) (cur : Nat)
    (h2 : (getNeighbors m cur).length = 2) : cur < m.length := by
  have hne : getNeighbors m cur ≠ [] := by
    intro hnil
    rw [hnil] at h2
    simp at h2
  obtain ⟨x, hx⟩ := List.exists_mem_of_ne_nil _ hne
  exact rowGet_one_lt m cur x (mem_getNeighbors m cur x hx).2

theorem traceAux_visited_length (m : Matrix) (n start : Nat) :
    ∀ fuel visited cycle cur prev,
      (traceAux m n start fuel visited cycle cur prev).visited.length
        = visited.length := by
  intro fuel
  induction fuel with
  | zero => intro visited cycle cur prev; rfl
  | succ f ih =>
    intro visited cycle cur prev
    simp only [traceAux]
    split
    · rfl
    · split
      · simp [List.length_set]
      · split
        · simp [List.length_set]
        · split
          · split
            · simp [List.length_set]
            · simp [List.length_set]
          · rw [ih]
            simp [List.length_set]

theorem traceAux_visited_mono (m : Matrix) (n start : Nat) :
    ∀ fuel visited cycle cur prev (j : Nat),
      visited.getD j false = true →
      (traceAux m n start fuel visited cycle cur prev).visited.getD j false = true := by
  intro fuel
  induction fuel with
  | zero => intro visited cycle cur prev j h; exact h
  | succ f ih =>
    intro visited cycle cur prev j h
    have h1 : (visited.set cur true).getD j false = true := getD_set_true_mono _ _ _ h
    simp only [traceAux]
    split
    · exact h
    · split
      · exact h1
      · split
        · exact h1
        · split
          · split
            · exact h1
            · exact h1
          · exact ih _ _ _ _ j h1

/-- The while loop of findSubtours marks a fresh node on every pass, so
a fuel of one more than the number of unvisited slots never runs out. -/
theorem traceAux_not_exhausted (m : Matrix) (n start : Nat) :
    ∀ fuel visited cycle cur prev,
      visited.count false < fuel →
      m.length ≤ visited.length →
      (traceAux m n start fuel visited cycle cur prev).exhausted = false := by
  intro fuel
  induction fuel with
  | zero => intro visited cycle cur prev hlt hlen; omega
  | succ f ih =>
    intro visited cycle cur prev hlt hlen
    simp only [traceAux]
    by_cases hguard : visited.getD cur false = true
    · rw [if_pos hguard]
    · rw [if_neg hguard]
      by_cases hb1 : (getNeighbors m cur).length = 0 ∧ n = 1
      · rw [if_pos hb1]
      · rw [if_neg hb1]
        rcases hopt : (if (getNeighbors m cur).length = 1 ∧ n = 2 then
              some ((getNeighbors m cur).getD 0 0)
            else if (getNeighbors m cur).length = 2 then
              some (if ((getNeighbors m cur).getD 0 0 : Int) = prev then
                  (getNeighbors m cur).getD 1 0
                else (getNeighbors m cur).getD 0 0)
            else none) with _ | nxt
        · rfl
        · dsimp only
          by_cases hvis : (visited.set cur true).getD nxt false = true
          · rw [if_pos hvis]
            by_cases hstart : nxt = start
            · rw [if_pos hstart]
            · rw [if_neg hstart]
          · rw [if_neg hvis]
            have hne : getNeighbors m cur ≠ [] := by
              intro hnil
              rw [hnil] at hopt
              simp at hopt
            have hcur : cur < m.length := by
              obtain ⟨x, hx⟩ := List.exists_mem_of_ne_nil _ hne
              exact rowGet_one_lt m cur x (mem_getNeighbors m cur x hx).2
            have hcurlen : cur < visited.length := lt_of_lt_of_le hcur hlen
            have hgf : visited.getD cur false = false := by
              rw [← Bool.not_eq_true]
              exact hguard
            apply ih
            · have := count_false_set_true visited cur hcurlen hgf
              omega
            · rw [List.length_set]
              exact hlen

/-- A trace started at an in-bounds unvisited node marks it. -/
theorem traceAux_marks_start (m : Matrix) (n start : Nat) :
    ∀ fuel visited cycle cur prev,
      fuel ≠ 0 → cur < visited.length → visited.getD cur false = false →
      (traceAux m n start fuel visited cycle cur prev).visited.getD cur false = true := by
  intro fuel
  cases fuel with
  | zero => intro visited cycle cur prev h; exact absurd rfl h
  | succ f =>
    intro visited cycle cur prev _ hlen hg
    have hset : (visited.set cur true).getD cur false = true := getD_set_self_bool _ _ _ hlen
    simp only [traceAux]
    rw [if_neg (by rw [Bool.not_eq_true]; exact hg)]
    split
    · exact hset
    · split
      · exact hset
      · split
        · split
          · exact hset
          · exact hset
        · exact traceAux_visited_mono m n start f _ _ _ _ cur hset

/-- Every node a trace visits is inspected when it is current; with n at
least 3 a degree other than 2 takes the error branch at that moment, so
a bad-degree visited node forces the degree-error report. -/
theorem traceAux_bad_degree (m : Matrix) (n start : Nat) (h3 : 3 ≤ n) :
    ∀ fuel visited cycle cur prev v,
      (traceAux m n start fuel visited cycle cur prev).visited.getD v false = true →
      visited.getD v false = false →
      rowDegree m v ≠ 2 →
      (traceAux m n start fuel visited cycle cur prev).degErr = true := by
  intro fuel
  induction fuel with
  | zero =>
    intro visited cycle cur prev v hv hold hdeg
    simp only [traceAux] at hv
    rw [hold] at hv
    simp at hv
  | succ f ih =>
    intro visited cycle cur prev v hv hold hdeg
    simp only [traceAux] at hv ⊢
    by_cases hguard : visited.getD cur false = true
    · rw [if_pos hguard] at hv ⊢
      dsimp only at hv
      rw [hold] at hv
      simp at hv
    · rw [if_neg hguard] at hv ⊢
      by_cases hb1 : (getNeighbors m cur).length = 0 ∧ n = 1
      · exact absurd hb1.2 (by omega)
      · rw [if_neg hb1] at hv ⊢
        rcases hopt : (if (getNeighbors m cur).length = 1 ∧ n = 2 then
              some ((getNeighbors m cur).getD 0 0)
            else if (getNeighbors m cur).length = 2 then
              some (if ((getNeighbors m cur).getD 0 0 : Int) = prev then
                  (getNeighbors m cur).getD 1 0
                else (getNeighbors m cur).getD 0 0)
            else none) with _ | nxt
        · rfl
        · rw [hopt] at hv
          dsimp only at hv ⊢
          have hlen2 : (getNeighbors m cur).length = 2 := by
            by_cases hcase : (getNeighbors m cur).length = 1 ∧ n = 2
            · exact absurd hcase.2 (by omega)
            · rw [if_neg hcase] at hopt
              by_cases hcase2 : (getNeighbors m cur).length = 2
              · exact hcase2
              · rw [if_neg hcase2] at hopt
                cases hopt
          have hcurdeg : rowDegree m cur = 2 := by
            rw [rowDegree, ← getNeighbors_length_two_eq m cur hlen2]
            exact hlen2
          by_cases hvis : (visited.set cur true).getD nxt false = true
          · rw [if_pos hvis] at hv ⊢
            by_cases hstart : nxt = start
            · rw [if_pos hstart] at hv ⊢
              dsimp only at hv
              by_cases hvc : v = cur
              · subst hvc
                exact absurd hcurdeg hdeg
              · rw [getD_set_ne_bool _ _ _ _ (fun hh => hvc hh.symm)] at hv
                rw [hold] at hv
                simp at hv
            · rw [if_neg hstart] at hv ⊢
              dsimp only at hv
              by_cases hvc : v = cur
              · subst hvc
                exact absurd hcurdeg hdeg
              · rw [getD_set_ne_bool _ _ _ _ (fun hh => hvc hh.symm)] at hv
                rw [hold] at hv
                simp at hv
          · rw [if_neg hvis] at hv ⊢
            by_cases hvc : v = cur
            · subst hvc
              exact absurd hcurdeg hdeg
            · apply ih _ _ _ _ v hv ?_ hdeg
              rw [getD_set_ne_bool _ _ _ _ (fun hh => hvc hh.symm)]
              exact hold

/-- One step of the findSubtours outer loop keeps the visited array
length and never exhausts its trace bound. -/
theorem findSubtoursStep_len_exh (m : Matrix) (n : Nat) (hn : n = m.length)
    (st : SubtoursRun) (i : Nat) (h1 : st.visited.length = m.length)
    (h2 : st.exhausted = false) :
    (findSubtoursStep m n st i).visited.length = m.length ∧
    (findSubtoursStep m n st i).exhausted = false := by
  rw [findSubtoursStep]
  have hlen : (traceAux m n i (n + 1) st.visited [] i (-1)).visited.length
      = st.visited.length := traceAux_visited_length m n i (n + 1) st.visited [] i (-1)
  have hexh : (traceAux m n i (n + 1) st.visited [] i (-1)).exhausted = false := by
    apply traceAux_not_exhausted
    · have hc : st.visited.count false ≤ st.visited.length := List.count_le_length _ _
      omega
    · omega
  split
  · exact ⟨h1, h2⟩
  · dsimp only
    split
    · constructor
      · rw [hlen, h1]
      · rw [h2, hexh]
        rfl
    · split
      · constructor
        · rw [List.length_set, hlen, h1]
        · rw [h2, hexh]
          rfl
      · constructor
        · rw [hlen, h1]
        · rw [h2, hexh]
          rfl

theorem fold_len_exh (m : Matrix) (n : Nat) (hn : n = m.length) :
    ∀ (l : List Nat) (st : SubtoursRun),
      st.visited.length = m.length → st.exhausted = false →
      ((l.foldl (findSubtoursStep m n) st).visited.length = m.length ∧
       (l.foldl (findSubtoursStep m n) st).exhausted = false) := by
  intro l
  induction l with
  | nil => intro st h1 h2; exact ⟨h1, h2⟩
  | cons i rest ih =>
    intro st h1 h2
    simp only [List.foldl_cons]
    obtain ⟨g1, g2⟩ := findSubtoursStep_len_exh m n hn st i h1 h2
    exact ih _ g1 g2

/-- findSubtours always terminates: the per-trace step bound of n + 1 is
never exhausted. -/
theorem findSubtoursRun_not_exhausted (m : Matrix) :
    (findSubtoursRun m).exhausted = false := by
  rw [findSubtoursRun]
  split
  · rfl
  · exact (fold_len_exh m m.length rfl (List.range m.length)
      ⟨[], List.replicate m.length false, false, false, false, false⟩
      (by simp) rfl).2

/-- One step of the outer loop preserves the invariant that every
visited bad-degree node has already forced the degree-error report. -/
theorem findSubtoursStep_bad (m : Matrix) (n : Nat) (h3 : 3 ≤ n) (hn : n = m.length)
    (st : SubtoursRun) (i : Nat) (hi : i < n)
    (hlen : st.visited.length = m.length)
    (hP : ∀ v, st.visited.getD v false = true → rowDegree m v ≠ 2 → st.degErr = true) :
    (findSubtoursStep m n st i).visited.length = m.length ∧
    ∀ v, (findSubtoursStep m n st i).visited.getD v false = true →
      rowDegree m v ≠ 2 → (findSubtoursStep m n st i).degErr = true := by
  rw [findSubtoursStep]
  have hlen2 : (traceAux m n i (n + 1) st.visited [] i (-1)).visited.length
      = st.visited.length := traceAux_visited_length m n i (n + 1) st.visited [] i (-1)
  split
  · exact ⟨hlen, hP⟩
  · rename_i hgnot
    have hgf : st.visited.getD i false = false := by
      rw [← Bool.not_eq_true]
      exact hgnot
    have key : ∀ v, (traceAux m n i (n + 1) st.visited [] i (-1)).visited.getD v false
          = true →
        rowDegree m v ≠ 2 →
        (st.degErr || (traceAux m n i (n + 1) st.visited [] i (-1)).degErr) = true := by
      intro v hv hdeg
      by_cases hold : st.visited.getD v false = true
      · rw [hP v hold hdeg]
        rfl
      · have hde := traceAux_bad_degree m n i h3 (n + 1) st.visited [] i (-1) v hv
          (by rw [← Bool.not_eq_true]; exact hold) hdeg
        rw [hde]
        simp
    dsimp only
    split
    · exact ⟨by rw [hlen2, hlen], key⟩
    · split
      · rename_i hcond
        have hmark : (traceAux m n i (n + 1) st.visited [] i (-1)).visited.getD i false
            = true := by
          apply traceAux_marks_start m n i (n + 1) st.visited [] i (-1) (by omega) _ hgf
          omega
        exact absurd hmark hcond.1
      · exact ⟨by rw [hlen2, hlen], key⟩

theorem fold_bad (m : Matrix) (n : Nat) (h3 : 3 ≤ n) (hn : n = m.length) :
    ∀ (l : List Nat) (st : SubtoursRun),
      (∀ x ∈ l, x < n) →
      st.visited.length = m.length →
      (∀ v, st.visited.getD v false = true → rowDegree m v ≠ 2 → st.degErr = true) →
      ∀ v, (l.foldl (findSubtoursStep m n) st).visited.getD v false = true →
        rowDegree m v ≠ 2 → (l.foldl (findSubtoursStep m n) st).degErr = true := by
  intro l
  induction l with
  | nil => intro st _ _ hP v hv hdeg; exact hP v hv hdeg
  | cons i rest ih =>
    intro st hmem hlen hP
    simp only [List.foldl_cons]
    obtain ⟨g1, g2⟩ := findSubtoursStep_bad m n h3 hn st i (hmem i (by simp)) hlen hP
    exact ih _ (fun x hx => hmem x (by simp [hx])) g1 g2

/-- C7: for a binary matrix with n at least 3 (the handled degenerate
shapes are n = 1 and n = 2), if any node visited by the findSubtours
traversal has a row degree other than 2, the run reports the
structural-inconsistency error (the console.error branch that aborts
the trace instead of following it further) and terminates without
exhausting its step bound — it never loops indefinitely. -/
theorem c7_structural_inconsistency (m : Matrix) (h3 : 3 ≤ m.length)
    (hbin : ∀ row ∈ m, ∀ x ∈ row, x = 0 ∨ x = 1) (v : Nat)
    (hv : (findSubtoursRun m).visited.getD v false = true)
    (hdeg : rowDegree m v ≠ 2) :
    (findSubtoursRun m).degErr = true ∧ (findSubtoursRun m).exhausted = false := by
  refine ⟨?_, findSubtoursRun_not_exhausted m⟩
  rw [findSubtoursRun] at hv ⊢
  rw [if_neg (by omega)] at hv ⊢
  apply fold_bad m m.length h3 rfl (List.range m.length)
    ⟨[], List.replicate m.length false, false, false, false, false⟩
    (fun x hx => List.mem_range.mp hx) (by simp)
    (fun w hw _ => by rw [getD_replicate_false] at hw; cases hw) v hv hdeg

/-- Witness for C7: the all-zero 3-node matrix, where node 0 is visited
and has degree 0. -/
theorem c7_structural_inconsistency_witness :
    (findSubtoursRun [[0, 0, 0], [0, 0, 0], [0, 0, 0]]).degErr = true ∧
    (findSubtoursRun [[0, 0, 0], [0, 0, 0], [0, 0, 0]]).exhausted = false :=
  c7_structural_inconsistency [[0, 0, 0], [0, 0, 0], [0, 0, 0]] (by decide) (by decide)
    0 (by decide) (by decide)

/-! ### C8: correspondence between the subtour trace and the cycle
extractor walk -/

theorem getD_mem_of_lt {α : Type} (l : List α) (i : Nat) (d : α) (h : i < l.length) :
    l.getD i d ∈ l := by
  rw [List.getD_eq_getElem l d h]
  exact List.getElem_mem h

/-- The node the trace moves to is one of the current node's neighbors. -/
theorem nextOpt_mem (m : Matrix) (n cur : Nat) (prev : Int) (nxt : Nat)
    (h : (if (getNeighbors m cur).length = 1 ∧ n = 2 then
            some ((getNeighbors m cur).getD 0 0)
          else if (getNeighbors m cur).length = 2 then
            some (if ((getNeighbors m cur).getD 0 0 : Int) = prev then
                (getNeighbors m cur).getD 1 0
              else (getNeighbors m cur).getD 0 0)
          else none) = some nxt) :
    nxt ∈ getNeighbors m cur := by
  by_cases h1 : (getNeighbors m cur).length = 1 ∧ n = 2
  · rw [if_pos h1] at h
    injection h with h
    rw [← h]
    exact getD_mem_of_lt _ _ _ (by omega)
  · rw [if_neg h1] at h
    by_cases h2 : (getNeighbors m cur).length = 2
    · rw [if_pos h2] at h
      injection h with h
      rw [← h]
      split
      · exact getD_mem_of_lt _ _ _ (by omega)
      · exact getD_mem_of_lt _ _ _ (by omega)
    · rw [if_neg h2] at h
      cases h

/-- A trace either invalidates its cycle or extends the collected one. -/
theorem traceAux_cycle_extends (m : Matrix) (n start : Nat) :
    ∀ fuel visited cycle cur prev,
      (traceAux m n start fuel visited cycle cur prev).cycle = [] ∨
      ∃ s, (traceAux m n start fuel visited cycle cur prev).cycle = cycle ++ s := by
  intro fuel
  induction fuel with
  | zero => intro visited cycle cur prev; exact Or.inr ⟨[], by simp [traceAux]⟩
  | succ f ih =>
    intro visited cycle cur prev
    simp only [traceAux]
    by_cases hguard : visited.getD cur false = true
    · rw [if_pos hguard]
      exact Or.inr ⟨[], by simp⟩
    · rw [if_neg hguard]
      by_cases hb1 : (getNeighbors m cur).length = 0 ∧ n = 1
      · rw [if_pos hb1]
        exact Or.inr ⟨[cur], rfl⟩
      · rw [if_neg hb1]
        rcases hopt : (if (getNeighbors m cur).length = 1 ∧ n = 2 then
              some ((getNeighbors m cur).getD 0 0)
            else if (getNeighbors m cur).length = 2 then
              some (if ((getNeighbors m cur).getD 0 0 : Int) = prev then
                  (getNeighbors m cur).getD 1 0
                else (getNeighbors m cur).getD 0 0)
            else none) with _ | nxt
        · exact Or.inl rfl
        · dsimp only
          by_cases hvis : (visited.set cur true).getD nxt false = true
          · rw [if_pos hvis]
            by_cases hstart : nxt = start
            · rw [if_pos hstart]
              exact Or.inr ⟨[cur], rfl⟩
            · rw [if_neg hstart]
              exact Or.inl rfl
          · rw [if_neg hvis]
            rcases ih (visited.set cur true) (cycle ++ [cur]) nxt cur with h | ⟨s, hs⟩
            · exact Or.inl h
            · exact Or.inr ⟨cur :: s, by rw [hs, List.append_assoc, List.singleton_append]⟩

/-- When the trace enters at an unvisited node, the extension starts
with that node. -/
theorem traceAux_cycle_cons (m : Matrix) (n start : Nat) :
    ∀ fuel visited cycle cur prev,
      fuel ≠ 0 → ¬ visited.getD cur false = true →
      ((traceAux m n start fuel visited cycle cur prev).cycle = [] ∨
       ∃ s, (traceAux m n start fuel visited cycle cur prev).cycle
          = cycle ++ (cur :: s)) := by
  intro fuel
  cases fuel with
  | zero => intro visited cycle cur prev h0 _; exact absurd rfl h0
  | succ f =>
    intro visited cycle cur prev _ hguard
    simp only [traceAux]
    rw [if_neg hguard]
    by_cases hb1 : (getNeighbors m cur).length = 0 ∧ n = 1
    · rw [if_pos hb1]
      exact Or.inr ⟨[], rfl⟩
    · rw [if_neg hb1]
      rcases hopt : (if (getNeighbors m cur).length = 1 ∧ n = 2 then
            some ((getNeighbors m cur).getD 0 0)
          else if (getNeighbors m cur).length = 2 then
            some (if ((getNeighbors m cur).getD 0 0 : Int) = prev then
                (getNeighbors m cur).getD 1 0
              else (getNeighbors m cur).getD 0 0)
          else none) with _ | nxt
      · exact Or.inl rfl
      · dsimp only
        by_cases hvis : (visited.set cur true).getD nxt false = true
        · rw [if_pos hvis]
          by_cases hstart : nxt = start
          · rw [if_pos hstart]
            exact Or.inr ⟨[], rfl⟩
          · rw [if_neg hstart]
            exact Or.inl rfl
        · rw [if_neg hvis]
          rcases traceAux_cycle_extends m n start f (visited.set cur true)
              (cycle ++ [cur]) nxt cur with h | ⟨s, hs⟩
          · exact Or.inl h
          · exact Or.inr ⟨s, by rw [hs, List.append_assoc, List.singleton_append]⟩

/-- A trace that keeps its cycle and does not run out of steps ended
cleanly: no degree error and no foreign-node warning. -/
theorem traceAux_flags_of_cycle (m : Matrix) (n start : Nat) :
    ∀ fuel visited cycle cur prev,
      (traceAux m n start fuel visited cycle cur prev).cycle ≠ [] →
      (traceAux m n start fuel visited cycle cur prev).exhausted = false →
      ((traceAux m n start fuel visited cycle cur prev).degErr = false ∧
       (traceAux m n start fuel visited cycle cur prev).foreign = false) := by
  intro fuel
  induction fuel with
  | zero =>
    intro visited cycle cur prev _ hex
    simp [traceAux] at hex
  | succ f ih =>
    intro visited cycle cur prev hne hex
    simp only [traceAux] at hne hex ⊢
    by_cases hguard : visited.getD cur false = true
    · rw [if_pos hguard]
      exact ⟨rfl, rfl⟩
    · rw [if_neg hguard] at hne hex ⊢
      by_cases hb1 : (getNeighbors m cur).length = 0 ∧ n = 1
      · rw [if_pos hb1]
        exact ⟨rfl, rfl⟩
      · rw [if_neg hb1] at hne hex ⊢
        rcases hopt : (if (getNeighbors m cur).length = 1 ∧ n = 2 then
              some ((getNeighbors m cur).getD 0 0)
            else if (getNeighbors m cur).length = 2 then
              some (if ((getNeighbors m cur).getD 0 0 : Int) = prev then
                  (getNeighbors m cur).getD 1 0
                else (getNeighbors m cur).getD 0 0)
            else none) with _ | nxt
        · rw [hopt] at hne
          exact absurd rfl hne
        · rw [hopt] at hne hex
          dsimp only at hne hex ⊢
          by_cases hvis : (visited.set cur true).getD nxt false = true
          · rw [if_pos hvis] at hne ⊢
            by_cases hstart : nxt = start
            · rw [if_pos hstart]
              exact ⟨rfl, rfl⟩
            · rw [if_neg hstart] at hne
              exact absurd rfl hne
          · rw [if_neg hvis] at hne hex ⊢
            exact ih _ _ _ _ hne hex

/-- The nodes a trace appends are fresh (unvisited on entry), in range,
and the whole collected cycle stays duplicate-free. -/
theorem traceAux_cycle_props (m : Matrix) (n start : Nat) :
    ∀ fuel visited cycle cur prev,
      visited.length = m.length → cur < m.length →
      cycle.Nodup → (∀ x ∈ cycle, visited.getD x false = true) →
      ((traceAux m n start fuel visited cycle cur prev).cycle.Nodup ∧
       (∀ x ∈ (traceAux m n start fuel visited cycle cur prev).cycle,
          x ∈ cycle ∨ (x < m.length ∧ visited.getD x false = false))) := by
  intro fuel
  induction fuel with
  | zero => intro visited cycle cur prev hv hc hnd hvis; exact ⟨hnd, fun x hx => Or.inl hx⟩
  | succ f ih =>
    intro visited cycle cur prev hv hc hnd hvis
    simp only [traceAux]
    by_cases hguard : visited.getD cur false = true
    · rw [if_pos hguard]
      exact ⟨hnd, fun x hx => Or.inl hx⟩
    · rw [if_neg hguard]
      have hgf : visited.getD cur false = false := by
        rw [← Bool.not_eq_true]
        exact hguard
      have hcur_notin : cur ∉ cycle := by
        intro hmem
        rw [hvis cur hmem] at hgf
        cases hgf
      have hnd1 : (cycle ++ [cur]).Nodup := by
        rw [List.nodup_append]
        exact ⟨hnd, List.nodup_singleton cur, List.disjoint_singleton.mpr hcur_notin⟩
      have hvis1 : ∀ x ∈ cycle ++ [cur], (visited.set cur true).getD x false = true := by
        intro x hx
        rcases List.mem_append.mp hx with hx | hx
        · exact getD_set_true_mono _ _ _ (hvis x hx)
        · rw [List.mem_singleton.mp hx]
          exact getD_set_self_bool _ _ _ (by omega)
      have hmem1 : ∀ x ∈ cycle ++ [cur],
          x ∈ cycle ∨ (x < m.length ∧ visited.getD x false = false) := by
        intro x hx
        rcases List.mem_append.mp hx with hx | hx
        · exact Or.inl hx
        · rw [List.mem_singleton.mp hx]
          exact Or.inr ⟨hc, hgf⟩
      by_cases hb1 : (getNeighbors m cur).length = 0 ∧ n = 1
      · rw [if_pos hb1]
        exact ⟨hnd1, hmem1⟩
      · rw [if_neg hb1]
        rcases hopt : (if (getNeighbors m cur).length = 1 ∧ n = 2 then
              some ((getNeighbors m cur).getD 0 0)
            else if (getNeighbors m cur).length = 2 then
              some (if ((getNeighbors m cur).getD 0 0 : Int) = prev then
                  (getNeighbors m cur).getD 1 0
                else (getNeighbors m cur).getD 0 0)
            else none) with _ | nxt
        · exact ⟨List.nodup_nil, by intro x hx; simp at hx⟩
        · dsimp only
          by_cases hvis2 : (visited.set cur true).getD nxt false = true
          · rw [if_pos hvis2]
            by_cases hstart : nxt = start
            · rw [if_pos hstart]
              exact ⟨hnd1, hmem1⟩
            · rw [if_neg hstart]
              exact ⟨List.nodup_nil, by intro x hx; simp at hx⟩
          · rw [if_neg hvis2]
            have hnxt : nxt < m.length :=
              (mem_getNeighbors m cur nxt (nextOpt_mem m n cur prev nxt hopt)).1
            obtain ⟨rnd, rmem⟩ := ih (visited.set cur true) (cycle ++ [cur]) nxt cur
              (by rw [List.length_set]; exact hv) hnxt hnd1 hvis1
            refine ⟨rnd, ?_⟩
            intro x hx
            rcases rmem x hx with hx1 | ⟨hxl, hxf⟩
            · exact hmem1 x hx1
            · refine Or.inr ⟨hxl, ?_⟩
              by_cases hxc : x = cur
              · subst hxc
                rw [getD_set_self_bool _ _ _ (by omega)] at hxf
                cases hxf
              · rw [getD_set_ne_bool _ _ _ _ (fun hh => hxc hh.symm)] at hxf
                exact hxf

theorem extractLoop_zero (m : Matrix) (n : Nat) (path : List Nat) (cur : Nat) (prev : Int) :
    extractLoop m n 0 path cur prev = extractValidate n path cur := rfl

theorem extractLoop_succ (m : Matrix) (n step : Nat) (path : List Nat) (cur : Nat)
    (prev : Int) :
    extractLoop m n (step + 1) path cur prev
      = (if ((List.range n).filter (fun j => rowGet m cur j = 1)).length ≠ 2 then
           .error (.badDegree cur ((List.range n).filter (fun j => rowGet m cur j = 1)).length n)
         else extractLoop m n step (path ++ [cur])
           (if (((List.range n).filter (fun j => rowGet m cur j = 1)).getD 0 0 : Int) = prev
            then ((List.range n).filter (fun j => rowGet m cur j = 1)).getD 1 0
            else ((List.range n).filter (fun j => rowGet m cur j = 1)).getD 0 0)
           (cur : Int)) := rfl

/-- A completed, clean cycle trace and the extractor walk follow the
same successor rule, so walking for exactly the appended-cycle length
lands the extractor in the final validation at the trace's start node
with the same collected path. -/
theorem traceAux_extract (m : Matrix) (start : Nat) (h3 : 3 ≤ m.length) :
    ∀ fuel visited cycle cur prev suffix,
      (traceAux m m.length start fuel visited cycle cur prev).cycle = cycle ++ suffix →
      suffix ≠ [] →
      (traceAux m m.length start fuel visited cycle cur prev).degErr = false →
      (traceAux m m.length start fuel visited cycle cur prev).foreign = false →
      (traceAux m m.length start fuel visited cycle cur prev).exhausted = false →
      ∀ path, extractLoop m m.length suffix.length path cur prev
        = extractValidate m.length (path ++ suffix) start := by
  intro fuel
  induction fuel with
  | zero =>
    intro visited cycle cur prev suffix hcy hne hdeg hfor hex
    simp [traceAux] at hex
  | succ f ih =>
    intro visited cycle cur prev suffix hcy hne hdeg hfor hex
    simp only [traceAux] at hcy hdeg hfor hex
    by_cases hguard : visited.getD cur false = true
    · rw [if_pos hguard] at hcy
      dsimp only at hcy
      exact absurd (List.self_eq_append_right.mp hcy) hne
    · rw [if_neg hguard] at hcy hdeg hfor hex
      by_cases hb1 : (getNeighbors m cur).length = 0 ∧ m.length = 1
      · exact absurd hb1.2 (by omega)
      · rw [if_neg hb1] at hcy hdeg hfor hex
        rcases hopt : (if (getNeighbors m cur).length = 1 ∧ m.length = 2 then
              some ((getNeighbors m cur).getD 0 0)
            else if (getNeighbors m cur).length = 2 then
              some (if ((getNeighbors m cur).getD 0 0 : Int) = prev then
                  (getNeighbors m cur).getD 1 0
                else (getNeighbors m cur).getD 0 0)
            else none) with _ | nxt
        · rw [hopt] at hdeg
          dsimp only at hdeg
          cases hdeg
        · rw [hopt] at hcy hdeg hfor hex
          dsimp only at hcy hdeg hfor hex
          have hlen2 : (getNeighbors m cur).length = 2 := by
            by_cases hcase : (getNeighbors m cur).length = 1 ∧ m.length = 2
            · exact absurd hcase.2 (by omega)
            · rw [if_neg hcase] at hopt
              by_cases hcase2 : (getNeighbors m cur).length = 2
              · exact hcase2
              · rw [if_neg hcase2] at hopt
                cases hopt
          have hnxt_eq : (if ((getNeighbors m cur).getD 0 0 : Int) = prev then
              (getNeighbors m cur).getD 1 0 else (getNeighbors m cur).getD 0 0) = nxt := by
            rw [if_neg (fun hc : (getNeighbors m cur).length = 1 ∧ m.length = 2 =>
                absurd hc.2 (by omega)), if_pos hlen2] at hopt
            injection hopt
          have hfil : (List.range m.length).filter (fun j => rowGet m cur j = 1)
              = getNeighbors m cur := (getNeighbors_length_two_eq m cur hlen2).symm
          by_cases hvis : (visited.set cur true).getD nxt false = true
          · rw [if_pos hvis] at hcy hdeg hfor hex
            by_cases hstart : nxt = start
            · rw [if_pos hstart] at hcy
              dsimp only at hcy
              have hsuf : suffix = [cur] := (List.append_cancel_left hcy).symm
              subst hsuf
              intro path
              rw [show ([cur] : List Nat).length = 0 + 1 from rfl, extractLoop_succ]
              rw [hfil, if_neg (by simp [hlen2]), hnxt_eq, extractLoop_zero, hstart]
            · rw [if_neg hstart] at hfor
              dsimp only at hfor
              cases hfor
          · rw [if_neg hvis] at hcy hdeg hfor hex
            cases f with
            | zero => simp [traceAux] at hex
            | succ f2 =>
              rcases traceAux_cycle_cons m m.length start (f2 + 1) (visited.set cur true)
                  (cycle ++ [cur]) nxt cur (by omega) hvis with hTnil | ⟨s3, hT⟩
              · rw [hTnil] at hcy
                exact absurd (List.append_eq_nil.mp hcy.symm).2 hne
              · have hsuf : suffix = cur :: nxt :: s3 := by
                  rw [hT, List.append_assoc, List.singleton_append] at hcy
                  exact (List.append_cancel_left hcy).symm
                subst hsuf
                intro path
                rw [show (cur :: nxt :: s3).length = (nxt :: s3).length + 1 from rfl,
    extractLoop_succ]
                rw [hfil, if_neg (by simp [hlen2]), hnxt_eq]
                rw [ih (visited.set cur true) (cycle ++ [cur]) nxt cur (nxt :: s3) hT
    (by simp) hdeg hfor hex (path ++ [cur])]
                rw [List.append_assoc, List.singleton_append]

/-- An extractor walk that returns collects exactly its step count of
nodes, each adjacent to the next, and is back at node 0 at the end. -/
theorem extractLoop_ok_chain (m : Matrix) (n : Nat) :
    ∀ fuel path cur prev out,
      extractLoop m n fuel path cur prev = .ok out →
      ∃ s, out = path ++ s ∧ (s = [] → cur = 0) ∧ (∀ y ∈ s.head?, y = cur) ∧
        List.Chain' (fun a b => rowGet m a b = 1) (s ++ [0]) := by
  intro fuel
  induction fuel with
  | zero =>
    intro path cur prev out h
    rw [extractLoop_zero, extractValidate] at h
    by_cases hc : cur ≠ 0
    · rw [if_pos hc] at h
      cases h
    · rw [if_neg hc] at h
      push_neg at hc
      by_cases hp : path.length ≠ n ∨ path.dedup.length ≠ n
      · rw [if_pos hp] at h
        cases h
      · rw [if_neg hp] at h
        injection h with h
        subst h
        refine ⟨[], by simp, fun _ => hc, by simp, ?_⟩
        simpa using List.chain'_singleton 0
  | succ f ih =>
    intro path cur prev out h
    rw [extractLoop_succ] at h
    by_cases hd : ((List.range n).filter (fun j => rowGet m cur j = 1)).length ≠ 2
    · rw [if_pos hd] at h
      cases h
    · rw [if_neg hd] at h
      push_neg at hd
      obtain ⟨s0, hout, hs0nil, hs0head, hchain⟩ := ih _ _ _ _ h
      have hadj : rowGet m cur (if (((List.range n).filter
            (fun j => rowGet m cur j = 1)).getD 0 0 : Int) = prev
          then ((List.range n).filter (fun j => rowGet m cur j = 1)).getD 1 0
          else ((List.range n).filter (fun j => rowGet m cur j = 1)).getD 0 0) = 1 := by
        have hmemf : (if (((List.range n).filter
              (fun j => rowGet m cur j = 1)).getD 0 0 : Int) = prev
            then ((List.range n).filter (fun j => rowGet m cur j = 1)).getD 1 0
            else ((List.range n).filter (fun j => rowGet m cur j = 1)).getD 0 0)
            ∈ (List.range n).filter (fun j => rowGet m cur j = 1) := by
          split
          · exact getD_mem_of_lt _ _ _ (by omega)
          · exact getD_mem_of_lt _ _ _ (by omega)
        simpa using (List.mem_filter.mp hmemf).2
      refine ⟨cur :: s0, by rw [hout, List.append_assoc, List.singleton_append],
        by simp, by simp, ?_⟩
      rw [List.cons_append, List.chain'_cons']
      refine ⟨?_, hchain⟩
      intro y hy
      rcases s0 with _ | ⟨z, zs⟩
      · simp only [List.nil_append, List.head?_cons, Option.mem_def,
          Option.some.injEq] at hy
        subst hy
        rw [← hs0nil rfl]
        exact hadj
      · simp only [List.cons_append, List.head?_cons, Option.mem_def,
          Option.some.injEq] at hy
        subst hy
        rw [hs0head z (by simp)]
        exact hadj

/-- A returning extractor walk passed the final validations: the path
has n entries and n distinct entries. -/
theorem extractLoop_ok_validate (m : Matrix) (n : Nat) :
    ∀ fuel path cur prev out,
      extractLoop m n fuel path cur prev = .ok out →
      out.length = n ∧ out.dedup.length = n := by
  intro fuel
  induction fuel with
  | zero =>
    intro path cur prev out h
    rw [extractLoop_zero, extractValidate] at h
    by_cases hc : cur ≠ 0
    · rw [if_pos hc] at h
      cases h
    · rw [if_neg hc] at h
      by_cases hp : path.length ≠ n ∨ path.dedup.length ≠ n
      · rw [if_pos hp] at h
        cases h
      · rw [if_neg hp] at h
        push_neg at hp
        injection h with h
        subst h
        exact hp
  | succ f ih =>
    intro path cur prev out h
    rw [extractLoop_succ] at h
    by_cases hd : ((List.range n).filter (fun j => rowGet m cur j = 1)).length ≠ 2
    · rw [if_pos hd] at h
      cases h
    · rw [if_neg hd] at h
      exact ih _ _ _ _ h

theorem findSubtoursStep_visited_mono (m : Matrix) (n : Nat) (st : SubtoursRun)
    (i j : Nat) (h : st.visited.getD j false = true) :
    (findSubtoursStep m n st i).visited.getD j false = true := by
  rw [findSubtoursStep]
  have hm : (traceAux m n i (n + 1) st.visited [] i (-1)).visited.getD j false = true :=
    traceAux_visited_mono m n i (n + 1) st.visited [] i (-1) j h
  split
  · exact h
  · dsimp only
    split
    · exact hm
    · split
      · exact getD_set_true_mono _ _ _ hm
      · exact hm

theorem findSubtoursStep_visited_len (m : Matrix) (n : Nat) (st : SubtoursRun) (i : Nat)
    (h1 : st.visited.length = m.length) :
    (findSubtoursStep m n st i).visited.length = m.length := by
  rw [findSubtoursStep]
  have hlen : (traceAux m n i (n + 1) st.visited [] i (-1)).visited.length
      = st.visited.length := traceAux_visited_length m n i (n + 1) st.visited [] i (-1)
  split
  · exact h1
  · dsimp only
    split
    · rw [hlen, h1]
    · split
      · rw [List.length_set, hlen, h1]
      · rw [hlen, h1]

/-- A step at an in-bounds index leaves that index visited. -/
theorem findSubtoursStep_marks (m : Matrix) (n : Nat) (st : SubtoursRun) (i : Nat)
    (hi : i < st.visited.length) :
    (findSubtoursStep m n st i).visited.getD i false = true := by
  rw [findSubtoursStep]
  split
  · rename_i hg
    exact hg
  · rename_i hg
    have hgf : st.visited.getD i false = false := by
      rw [← Bool.not_eq_true]
      exact hg
    have hmark := traceAux_marks_start m n i (n + 1) st.visited [] i (-1) (by omega) hi hgf
    dsimp only
    split
    · exact hmark
    · split
      · exact getD_set_true_mono _ _ _ hmark
      · exact hmark

/-- One step appends at most one cycle, and an appended cycle is
duplicate-free, within range, and disjoint from the nodes already
visited before the step. -/
theorem findSubtoursStep_subtours (m : Matrix) (n : Nat) (st : SubtoursRun) (i : Nat)
    (hi : i < m.length) (h1 : st.visited.length = m.length) :
    (findSubtoursStep m n st i).subtours = st.subtours ∨
    ∃ d, (findSubtoursStep m n st i).subtours = st.subtours ++ [d] ∧ d.Nodup ∧
      ∀ x ∈ d, x < m.length ∧ st.visited.getD x false = false := by
  rw [findSubtoursStep]
  split
  · exact Or.inl rfl
  · dsimp only
    split
    · refine Or.inr ⟨_, rfl, ?_, ?_⟩
      · exact (traceAux_cycle_props m n i (n + 1) st.visited [] i (-1) h1 hi
          List.nodup_nil (by simp)).1
      · intro x hx
        rcases (traceAux_cycle_props m n i (n + 1) st.visited [] i (-1) h1 hi
            List.nodup_nil (by simp)).2 x hx with h | h
        · simp at h
        · exact h
    · split
      · exact Or.inl rfl
      · exact Or.inl rfl

/-- Across the remaining fold, every cycle appended after a given state
avoids everything that state had already visited. -/
theorem fold_subtours_props (m : Matrix) (n : Nat) :
    ∀ (l : List Nat) (st : SubtoursRun),
      st.visited.length = m.length → (∀ x ∈ l, x < m.length) →
      ∃ r, (l.foldl (findSubtoursStep m n) st).subtours = st.subtours ++ r ∧
        ∀ d ∈ r, d.Nodup ∧ ∀ x ∈ d, x < m.length ∧ st.visited.getD x false = false := by
  intro l
  induction l with
  | nil => intro st h1 h2; exact ⟨[], by simp, by simp⟩
  | cons i rest ih =>
    intro st h1 h2
    simp only [List.foldl_cons]
    have hi : i < m.length := h2 i (by simp)
    have hl1 := findSubtoursStep_visited_len m n st i h1
    obtain ⟨r2, hr2, hr2p⟩ := ih (findSubtoursStep m n st i) hl1
      (fun x hx => h2 x (by simp [hx]))
    have hdown : ∀ d2 ∈ r2, d2.Nodup ∧
        ∀ x ∈ d2, x < m.length ∧ st.visited.getD x false = false := by
      intro d2 hd2
      obtain ⟨hnd2, hp2⟩ := hr2p d2 hd2
      refine ⟨hnd2, fun x hx => ?_⟩
      obtain ⟨hxl, hxf⟩ := hp2 x hx
      refine ⟨hxl, ?_⟩
      by_cases hv : st.visited.getD x false = true
      · rw [findSubtoursStep_visited_mono m n st i x hv] at hxf
        cases hxf
      · rw [← Bool.not_eq_true]
        exact hv
    rcases findSubtoursStep_subtours m n st i hi h1 with hs | ⟨d, hs, hdnd, hdp⟩
    · refine ⟨r2, by rw [hr2, hs], hdown⟩
    · refine ⟨d :: r2, by rw [hr2, hs, List.append_assoc, List.singleton_append], ?_⟩
      intro d2 hd2
      rcases List.mem_cons.mp hd2 with rfl | hd2
      · exact ⟨hdnd, hdp⟩
      · exact hdown d2 hd2

/-- The first fold step, when its trace keeps a cycle: the run so far is
exactly that one cycle and the trace's visited set. -/
theorem step0_cycle_pos (m : Matrix) (h3 : 3 ≤ m.length)
    (hpos : 0 < (traceAux m m.length 0 (m.length + 1)
        (List.replicate m.length false) [] 0 (-1)).cycle.length) :
    findSubtoursStep m m.length
        ⟨[], List.replicate m.length false, false, false, false, false⟩ 0
      = ⟨[(traceAux m m.length 0 (m.length + 1)
            (List.replicate m.length false) [] 0 (-1)).cycle],
         (traceAux m m.length 0 (m.length + 1)
            (List.replicate m.length false) [] 0 (-1)).visited,
         (traceAux m m.length 0 (m.length + 1)
            (List.replicate m.length false) [] 0 (-1)).degErr,
         (traceAux m m.length 0 (m.length + 1)
            (List.replicate m.length false) [] 0 (-1)).foreign, false,
         (traceAux m m.length 0 (m.length + 1)
            (List.replicate m.length false) [] 0 (-1)).exhausted⟩ := by
  rw [findSubtoursStep, if_neg (by dsimp only; rw [getD_replicate_false]; simp)]
  dsimp only
  rw [if_pos hpos]
  simp

/-- The first fold step, when its trace invalidated its cycle: no cycle
is collected, and node 0 is nevertheless marked visited. -/
theorem step0_cycle_nil (m : Matrix) (h3 : 3 ≤ m.length)
    (hnil : (traceAux m m.length 0 (m.length + 1)
        (List.replicate m.length false) [] 0 (-1)).cycle = []) :
    (findSubtoursStep m m.length
        ⟨[], List.replicate m.length false, false, false, false, false⟩ 0).subtours = [] ∧
    (findSubtoursStep m m.length
        ⟨[], List.replicate m.length false, false, false, false, false⟩ 0).visited.getD 0
        false = true := by
  have hmark := traceAux_marks_start m m.length 0 (m.length + 1)
    (List.replicate m.length false) [] 0 (-1) (by omega)
    (by rw [List.length_replicate]; omega) (getD_replicate_false _ _)
  constructor
  · rw [findSubtoursStep, if_neg (by dsimp only; rw [getD_replicate_false]; simp)]
    dsimp only
    rw [if_neg (by rw [hnil]; simp), if_neg (by intro hc; exact hc.1 hmark)]
  · exact findSubtoursStep_marks m m.length _ 0
      (by dsimp only; rw [List.length_replicate]; omega)

/-- The success half of the extractor contract: on a square matrix whose
subtour decomposition is one single all-covering cycle, extractTableCycle
returns exactly that cycle. -/
theorem extract_of_findSubtours (m : Matrix) (c : List Nat) (h3 : 3 ≤ m.length)
    (hsq : ∀ row ∈ m, row.length = m.length)
    (hfs : findSubtours m = [c]) (hlen : c.length = m.length) :
    extractTableCycle m = .ok c ∧ c.head? = some 0 ∧ c.Nodup ∧
      List.Chain' (fun a b => rowGet m a b = 1) (c ++ [0]) := by
  have hm0 : ¬ m.length = 0 := by omega
  simp only [findSubtours, findSubtoursRun, hm0, if_false] at hfs
  have hrange : List.range m.length = 0 :: (List.range (m.length - 1)).map Nat.succ := by
    rw [← List.range_succ_eq_map]
    congr 1
    omega
  rw [hrange, List.foldl_cons] at hfs
  have hrest : ∀ x ∈ (List.range (m.length - 1)).map Nat.succ, x < m.length := by
    intro x hx
    obtain ⟨y, hy, rfl⟩ := List.mem_map.mp hx
    have := List.mem_range.mp hy
    omega
  have hT0ex : (traceAux m m.length 0 (m.length + 1)
      (List.replicate m.length false) [] 0 (-1)).exhausted = false := by
    apply traceAux_not_exhausted
    · rw [List.count_replicate]
      simp
    · rw [List.length_replicate]
  by_cases hT0c : 0 < (traceAux m m.length 0 (m.length + 1)
      (List.replicate m.length false) [] 0 (-1)).cycle.length
  · obtain ⟨r, hr, -⟩ := fold_subtours_props m m.length
      ((List.range (m.length - 1)).map Nat.succ)
      (findSubtoursStep m m.length
        ⟨[], List.replicate m.length false, false, false, false, false⟩ 0)
      (findSubtoursStep_visited_len m m.length _ 0 (by rw [List.length_replicate])) hrest
    rw [hr, step0_cycle_pos m h3 hT0c] at hfs
    dsimp only at hfs
    rw [List.singleton_append] at hfs
    injection hfs with h1 h2
    have hcne : c ≠ [] := by
      intro hc
      rw [hc] at hlen
      simp at hlen
      omega
    have hflags := traceAux_flags_of_cycle m m.length 0 (m.length + 1)
      (List.replicate m.length false) [] 0 (-1) (by rw [h1]; exact hcne) hT0ex
    have hhead : c.head? = some 0 := by
      rcases traceAux_cycle_cons m m.length 0 (m.length + 1)
          (List.replicate m.length false) [] 0 (-1) (by omega)
          (by rw [getD_replicate_false]; simp) with hnil | ⟨s, hs⟩
      · rw [h1] at hnil
        exact absurd hnil hcne
      · rw [h1, List.nil_append] at hs
        rw [hs]
        rfl
    have hnd : c.Nodup := by
      have hp := (traceAux_cycle_props m m.length 0 (m.length + 1)
        (List.replicate m.length false) [] 0 (-1) (by rw [List.length_replicate])
        (by omega) List.nodup_nil (by simp)).1
      rw [h1] at hp
      exact hp
    have hE := traceAux_extract m 0 h3 (m.length + 1)
      (List.replicate m.length false) [] 0 (-1) c (by rw [h1, List.nil_append])
      hcne hflags.1 hflags.2 hT0ex []
    rw [List.nil_append] at hE
    have hval : extractValidate m.length c 0 = .ok c := by
      rw [extractValidate, if_neg (by simp),
        if_neg (by simp [hlen, List.Nodup.dedup hnd])]
    have hrow0 : (m.getD 0 []).length = m.length := by
      rw [List.getD_eq_getElem m [] (show 0 < m.length by omega)]
      exact hsq _ (List.getElem_mem _)
    have e1 : ¬ m.length = 1 := by omega
    have e2 : ¬ m.length = 2 := by omega
    have hext : extractTableCycle m = .ok c := by
      simp only [extractTableCycle, hm0, e1, e2, if_false]
      rw [if_neg (by rw [hrow0]; simp)]
      nth_rewrite 2 [← hlen]
      rw [hE, hval]
    refine ⟨hext, hhead, hnd, ?_⟩
    have hloopok : extractLoop m m.length c.length [] 0 (-1) = .ok c := by
      rw [hE, hval]
    obtain ⟨s, hps, -, -, hchain⟩ :=
      extractLoop_ok_chain m m.length c.length [] 0 (-1) c hloopok
    rw [List.nil_append] at hps
    rw [hps]
    exact hchain
  · have hnil : (traceAux m m.length 0 (m.length + 1)
        (List.replicate m.length false) [] 0 (-1)).cycle = [] :=
      List.length_eq_zero.mp (by omega)
    obtain ⟨hsub0, hvis0⟩ := step0_cycle_nil m h3 hnil
    obtain ⟨r, hr, hrp⟩ := fold_subtours_props m m.length
      ((List.range (m.length - 1)).map Nat.succ)
      (findSubtoursStep m m.length
        ⟨[], List.replicate m.length false, false, false, false, false⟩ 0)
      (findSubtoursStep_visited_len m m.length _ 0 (by rw [List.length_replicate])) hrest
    rw [hr, hsub0, List.nil_append] at hfs
    have hcmem : c ∈ r := by
      rw [hfs]
      simp
    obtain ⟨hnd, hcp⟩ := hrp c hcmem
    have h0notin : (0 : Nat) ∉ c := by
      intro h0
      have hf := (hcp 0 h0).2
      rw [hvis0] at hf
      cases hf
    exfalso
    have hsubset : c.toFinset ⊆ (Finset.range m.length).erase 0 := by
      intro x hx
      rw [List.mem_toFinset] at hx
      refine Finset.mem_erase.mpr ⟨?_, Finset.mem_range.mpr (hcp x hx).1⟩
      intro hx0
      rw [hx0] at hx
      exact h0notin hx
    have hcard := Finset.card_le_card hsubset
    rw [List.toFinset_card_of_nodup hnd,
      Finset.card_erase_of_mem (Finset.mem_range.mpr (by omega)),
      Finset.card_range] at hcard
    omega

/-- C8: extractTableCycle returns [] for n = 0, [0] for n = 1 and
[0, 1] for n = 2; for every square single-cycle matrix with n at least 3
(one findSubtours cycle covering all n nodes) it returns that cycle — n
distinct indices starting at 0 whose consecutive entries, including the
wraparound back to 0, are adjacent in the matrix; and whenever it
returns at all for n at least 3, the returned walk necessarily passed
every validation (n distinct nodes, start 0, degree-2 steps, closing
adjacency), since any deviation throws. -/
theorem c8_cycle_extractor :
    (∀ m : Matrix, m.length = 0 → extractTableCycle m = .ok []) ∧
    (∀ m : Matrix, m.length = 1 → extractTableCycle m = .ok [0]) ∧
    (∀ m : Matrix, m.length = 2 → extractTableCycle m = .ok [0, 1]) ∧
    (∀ (m : Matrix) (c : List Nat), 3 ≤ m.length →
      (∀ row ∈ m, row.length = m.length) →
      findSubtours m = [c] → c.length = m.length →
      extractTableCycle m = .ok c ∧ c.head? = some 0 ∧ c.Nodup ∧ c.length = m.length ∧
        List.Chain' (fun a b => rowGet m a b = 1) (c ++ [0])) ∧
    (∀ (m : Matrix) (p : List Nat), 3 ≤ m.length → extractTableCycle m = .ok p →
      p.length = m.length ∧ p.Nodup ∧ p.head? = some 0 ∧
        List.Chain' (fun a b => rowGet m a b = 1) (p ++ [0])) := by
  refine ⟨?_, ?_, ?_, ?_, ?_⟩
  · intro m h
    simp [extractTableCycle, h]
  · intro m h
    simp [extractTableCycle, h]
  · intro m h
    simp [extractTableCycle, h]
  · intro m c h3 hsq hfs hlen
    obtain ⟨he, hh, hn, hc⟩ := extract_of_findSubtours m c h3 hsq hfs hlen
    exact ⟨he, hh, hn, hlen, hc⟩
  · intro m p h3 hok
    have hm0 : ¬ m.length = 0 := by omega
    have e1 : ¬ m.length = 1 := by omega
    have e2 : ¬ m.length = 2 := by omega
    simp only [extractTableCycle, hm0, e1, e2, if_false] at hok
    by_cases hdim : (m.getD 0 []).length ≠ m.length
    · rw [if_pos hdim] at hok
      cases hok
    · rw [if_neg hdim] at hok
      obtain ⟨hl, hdl⟩ := extractLoop_ok_validate m m.length m.length [] 0 (-1) p hok
      have hnd : p.Nodup := by
        rw [← List.dedup_eq_self]
        exact List.Sublist.eq_of_length (List.dedup_sublist p) (by rw [hdl, hl])
      obtain ⟨s, hps, hsnil, hshead, hchain⟩ :=
        extractLoop_ok_chain m m.length m.length [] 0 (-1) p hok
      rw [List.nil_append] at hps
      subst hps
      refine ⟨hl, hnd, ?_, hchain⟩
      cases p with
      | nil =>
        exact absurd hl (by simp; omega)
      | cons a s2 =>
        have ha := hshead a (by simp)
        rw [List.head?_cons, ha]

/-- Witness for C8: the triangle matrix, whose single 3-cycle is
extracted as [0, 1, 2]. -/
theorem c8_cycle_extractor_witness :
    extractTableCycle triMatrix = .ok [0, 1, 2] ∧
    ([0, 1, 2] : List Nat).head? = some 0 ∧ ([0, 1, 2] : List Nat).Nodup ∧
    ([0, 1, 2] : List Nat).length = triMatrix.length ∧
    List.Chain' (fun a b => rowGet triMatrix a b = 1) ([0, 1, 2] ++ [0]) :=
  c8_cycle_extractor.2.2.2.1 triMatrix [0, 1, 2] (by decide) (by decide) (by decide)
    (by decide)

end TableSitting
